import Mathlib

/-
Shallow embedding of the batch experiment orchestrator of this repository
(`src/utils/experiment.py`), together with theorems settling the frozen claims.

Modelling conventions:
* Python floats that only flow through the code (temperatures, top_p values,
  latencies, progress fractions) are represented as rationals `ℚ`.
* Python dictionaries with a fixed key set are structures whose fields are
  `Option`-valued when a key may be absent.
* Fallible collaborator calls (document loader, splitter, index builder, model
  chains, UI sinks) are environment parameters returning `Except`; a raised
  exception is an `Except.error`.
* The orchestrator additionally records a trace of the externally visible
  calls it makes (ghost instrumentation: `Ev` values carry the position `g` of
  the ingestion pair in the grid and the position `i` of the task in its
  group, so that claims can speak about individual tasks).
-/

namespace Exp

instance {ε α : Type} [DecidableEq ε] [DecidableEq α] : DecidableEq (Except ε α)
  | .error e, .error e2 =>
    if h : e = e2 then .isTrue (by rw [h]) else .isFalse (by simp [h])
  | .error _, .ok _ => .isFalse (by simp)
  | .ok _, .error _ => .isFalse (by simp)
  | .ok a, .ok a2 =>
    if h : a = a2 then .isTrue (by rw [h]) else .isFalse (by simp [h])

/-- Whether the first character list starts with the second (the pattern). -/
def startsWithL : List Char → List Char → Bool
  | _, [] => true
  | [], _ :: _ => false
  | c :: cs, p :: ps => (p = c) && startsWithL cs ps

/-- Whether the pattern (second list) occurs as a contiguous sublist of the
first. -/
def occursIn : List Char → List Char → Bool
  | s, pat => startsWithL s pat ||
    match s with
    | [] => false
    | _ :: cs => occursIn cs pat

/-- Python's substring test `pat in s` (experiment.py lines 30–31, 120, 224,
286). -/
def containsSub (pat s : String) : Bool :=
  occursIn s.data pat.data

/-- A record of the JSON retry-policy table (`model_config.json`), with the
four keys `create_retryer` reads; each key may be absent (`dict.get`). -/
structure PolicyDict where
  enable_retry : Option Bool := none
  wait_min : Option ℚ := none
  wait_max : Option ℚ := none
  max_attempts : Option Nat := none
deriving DecidableEq

/-- The literal fallback `{"enable_retry": False}` (experiment.py lines 32–33). -/
def noRetryDict : PolicyDict := { enable_retry := some false }

/-- The fixed ordered provider list of `get_retry_config` (line 30). -/
def providerFamilies : List String := ["Ollama", "Groq", "GitHub", "Gemini"]

/-- `get_retry_config` (experiment.py lines 28–33): first provider whose name
occurs in `model_name` wins; a matched provider missing from the table, or no
match at all, falls back to the table's `"default"` entry, and failing that to
`noRetryDict`.  The table (`MODEL_CONFIG`) is an explicit parameter. -/
def get_retry_config (table : String → Option PolicyDict) (model_name : String) :
    PolicyDict :=
  match providerFamilies.find? (fun p => containsSub p model_name) with
  | some p => (table p).getD ((table "default").getD noRetryDict)
  | none => (table "default").getD noRetryDict

/-- The data `create_retryer` bakes into the tenacity `Retrying` object. -/
structure RetryerCfg where
  wait_min : ℚ
  wait_max : ℚ
  max_attempts : Nat
deriving DecidableEq

/-- `create_retryer` (experiment.py lines 35–44): `None` unless
`enable_retry` is truthy, otherwise a retryer with
`wait_exponential(multiplier=2, min=wait_min or 4, max=wait_max or 60)` and
`stop_after_attempt(max_attempts or 5)`. -/
def create_retryer (cfg : PolicyDict) : Option RetryerCfg :=
  if cfg.enable_retry.getD false = false then none
  else some ⟨cfg.wait_min.getD 4, cfg.wait_max.getD 60, cfg.max_attempts.getD 5⟩

/-- Exceptions a model call can raise.  `rateLimit` and `internalServer`
stand for `openai.RateLimitError` / `openai.InternalServerError`, the two
types in the `retry_if_exception_type` filter (line 40); `other` is any other
exception. -/
inductive PyErr where
  | rateLimit (msg : String)
  | internalServer (msg : String)
  | other (msg : String)
deriving DecidableEq

/-- Whether the error matches `retry_if_exception_type((RateLimitError,
InternalServerError))`. -/
def PyErr.isTransient : PyErr → Bool
  | .rateLimit _ => true
  | .internalServer _ => true
  | .other _ => false

/-- `str(e)` of the exception. -/
def PyErr.msg : PyErr → String
  | .rateLimit m => m
  | .internalServer m => m
  | .other m => m

/-- tenacity's `wait_exponential(multiplier=2, min=mn, max=mx)` evaluated
after attempt number `attempt` (1-based):
`max(max(0, mn), min(2 * 2^(attempt-1), mx))`. -/
def waitExp (mn mx : ℚ) (attempt : Nat) : ℚ :=
  max (max 0 mn) (min (2 * 2 ^ (attempt - 1)) mx)

/-- The tenacity `Retrying` loop configured by `create_retryer` and driven as
`for attempt in retryer: with attempt: body` (lines 56–59, 91–93), with
`reraise=True`.  `call n` is the outcome of the n-th (1-based) invocation of
the body.  Returns (number of attempts made, back-off waits taken, final
outcome).  A non-transient error stops immediately; a transient error retries
until `stop_after_attempt max_attempts` holds, i.e. while `attempt <
max_attempts`; `reraise=True` re-raises the last attempt's own exception.
`fuel` only bounds the recursion and is instantiated with `max_attempts`. -/
def retryGo (mn mx : ℚ) (maxA : Nat) (call : Nat → Except PyErr α) :
    Nat → Nat → Nat × List ℚ × Except PyErr α
  | attempt, 0 => (attempt, [], call attempt)
  | attempt, fuel + 1 =>
    match call attempt with
    | .ok a => (attempt, [], .ok a)
    | .error e =>
      if e.isTransient && attempt < maxA then
        let rest := retryGo mn mx maxA call (attempt + 1) fuel
        (rest.1, waitExp mn mx attempt :: rest.2.1, rest.2.2)
      else (attempt, [], .error e)

/-- Run a call through a `create_retryer` result. -/
def runRetry (r : RetryerCfg) (call : Nat → Except PyErr α) :
    Nat × List ℚ × Except PyErr α :=
  retryGo r.wait_min r.wait_max r.max_attempts call 1 r.max_attempts

/-- Outcome of `rag_chain.invoke({"input": question})`: the response dict with
its `"answer"` string and `"context"` document list (page contents). -/
structure GenResp where
  answer : String
  context : List String
deriving DecidableEq

/-- The judge score dict returned by `judge_chain.invoke` (keys read with
`.get`, hence optional). -/
structure Score where
  accuracy : Option ℚ := none
  faithfulness : Option ℚ := none
  relevance : Option ℚ := none
  explanation : Option String := none
deriving DecidableEq

/-- The dict `_run_generation` returns (lines 68–75). -/
structure GenRet where
  successful : Bool
  answer : Option String := none
  context : Option String := none
  latency_rag : Option ℚ := none
  error : Option String := none
deriving DecidableEq

/-- The dict `_run_judging` returns (lines 99–105). -/
structure JudgeRet where
  successful : Bool
  score : Option Score := none
  latency_judge : Option ℚ := none
  error : Option String := none
deriving DecidableEq

/-- The guarded call of `_run_generation`/`_run_judging`: run the chain once,
or through the retryer when the resolved policy enables retries
(lines 51–61, 85–95). -/
def guardedCall (table : String → Option PolicyDict) (model_name : String)
    (call : Nat → Except PyErr α) : Except PyErr α :=
  match create_retryer (get_retry_config table model_name) with
  | some r => (runRetry r call).2.2
  | none => call 1

/-- The `try`-block of `_run_generation` (lines 50–73): any exception raised
inside it propagates as `.error`.  `elapsed` is the measured wall-clock
latency of the chain call. -/
def run_generation_body (table : String → Option PolicyDict)
    (model_name : String) (call : Nat → Except PyErr GenResp) (elapsed : ℚ) :
    Except PyErr GenRet :=
  match guardedCall table model_name call with
  | .error e => .error e
  | .ok resp => .ok
      { successful := true, answer := some resp.answer,
        context := some (String.intercalate "\n\n" resp.context),
        latency_rag := some elapsed }

/-- `_run_generation` (lines 46–75): the `try/except Exception` wrapper;
a raised exception becomes `{"successful": False, "error": str(e)}`. -/
def run_generation (table : String → Option PolicyDict) (model_name : String)
    (call : Nat → Except PyErr GenResp) (elapsed : ℚ) : GenRet :=
  match run_generation_body table model_name call elapsed with
  | .ok d => d
  | .error e => { successful := false, error := some e.msg }

/-- The `try`-block of `_run_judging` (lines 82–103). -/
def run_judging_body (table : String → Option PolicyDict) (judge_model : String)
    (call : Nat → Except PyErr Score) (elapsed : ℚ) : Except PyErr JudgeRet :=
  match guardedCall table judge_model call with
  | .error e => .error e
  | .ok sc => .ok
      { successful := true, score := some sc, latency_judge := some elapsed }

/-- `_run_judging` (lines 78–105). -/
def run_judging (table : String → Option PolicyDict) (judge_model : String)
    (call : Nat → Except PyErr Score) (elapsed : ℚ) : JudgeRet :=
  match run_judging_body table judge_model call elapsed with
  | .ok d => d
  | .error e => { successful := false, error := some e.msg }

/-- The configuration dict consumed by `run_batch_experiment` (the
`max_concurrency` entry is read into `max_workers` at line 157 but never used
afterwards, so it is omitted). -/
structure Config where
  model_name : String
  judge_model : String
  chunk_sizes : List Nat
  chunk_overlaps : List Nat
  k_retrievals : List Nat
  temperatures : List ℚ
  top_ps : List ℚ
deriving DecidableEq

/-- `itertools.product(xs, ys)`: all pairs, first component outermost. -/
def gridProd (xs : List α) (ys : List β) : List (α × β) :=
  xs.flatMap fun a => ys.map fun b => (a, b)

/-- `ingestion_params` (lines 128–134): the chunk grid when files are
supplied, a single degenerate `(None, None)` group otherwise. -/
def ingestionParams (cfg : Config) (hasFiles : Bool) : List (Option (Nat × Nat)) :=
  if hasFiles then (gridProd cfg.chunk_sizes cfg.chunk_overlaps).map some
  else [none]

/-- `retrieval_params` (lines 130, 134). -/
def retrievalParams (cfg : Config) (hasFiles : Bool) : List Nat :=
  if hasFiles then cfg.k_retrievals else [0]

/-- `generation_params` (line 136). -/
def generationParams (cfg : Config) : List (ℚ × ℚ) :=
  gridProd cfg.temperatures cfg.top_ps

/-- `total_steps` (line 139). -/
def totalSteps (cfg : Config) (hasFiles : Bool) : Nat :=
  (ingestionParams cfg hasFiles).length * (retrievalParams cfg hasFiles).length *
    (generationParams cfg).length

/-- The per-group step quota `len(retrieval_params) * len(generation_params)`
(lines 167, 183). -/
def quota (cfg : Config) (hasFiles : Bool) : Nat :=
  (retrievalParams cfg hasFiles).length * (generationParams cfg).length

/-- A task dict (lines 190–197); the shared vectorstore handle is implicit in
the task's group. -/
structure Task where
  k : Nat
  temperature : ℚ
  top_p : ℚ
  chunk_size : Option Nat
  chunk_overlap : Option Nat
deriving DecidableEq

/-- The task list of one ingestion group (lines 187–197): `k` outermost, then
the generation pairs. -/
def groupTasks (cfg : Config) (hasFiles : Bool) (pair : Option (Nat × Nat)) :
    List Task :=
  (retrievalParams cfg hasFiles).flatMap fun k =>
    (generationParams cfg).map fun tp =>
      { k := k, temperature := tp.1, top_p := tp.2,
        chunk_size := pair.map Prod.fst, chunk_overlap := pair.map Prod.snd }

/-- What `_run_generation` delivers on success: answer, joined context,
latency. -/
structure GenData where
  answer : String
  context : String
  latency : ℚ
deriving DecidableEq

/-- What `_run_judging` delivers on success: the score dict and latency. -/
structure JudgeData where
  score : Score
  latency : ℚ
deriving DecidableEq

/-- Behaviour of all collaborators during one run.  Per-task outcomes are
indexed by the position `g` of the ingestion pair in the grid and the position
`i` of the task in its group.  `setupFail g i = some e` means
`get_llm`/`get_rag_chain` raises for that task (lines 210–211) before the
generation call; `genOutcome`/`judgeOutcome` is the resulting dict of
`_run_generation`/`_run_judging` collapsed to its success payload or error
string (those helpers never raise, see `run_generation_shape`).  `statusFail n`
(resp. `progressFail n`) says whether the n-th call of the status sink (resp.
progress sink) raises. -/
structure Env where
  ollamaReachable : Bool
  loadDoc : String → Except String (List String)
  splitDocs : List String → Nat → Nat → Except String (List String)
  buildIndex : List String → Except String Unit
  setupFail : Nat → Nat → Option String
  genOutcome : Nat → Nat → Except String GenData
  judgeOutcome : Nat → Nat → Except String JudgeData
  statusFail : Nat → Bool
  progressFail : Nat → Bool

/-- Externally visible calls the orchestrator makes, in order.  `g` and `i`
are ghost position tags (see `Env`). -/
inductive Ev where
  | load (path : String)
  | splitCall (g size overlap : Nat)
  | buildCall (g size overlap : Nat)
  | genCall (g i : Nat)
  | genRelease (g : Nat) (model : String)
  | judgeCall (g i : Nat)
  | judgeRelease (g : Nat) (model : String)
deriving DecidableEq

/-- A row of the returned result list (lines 253–269).  `gIdx`/`tIdx` are
ghost position tags identifying the task the row came from. -/
structure Record where
  gIdx : Nat
  tIdx : Nat
  question : String
  answer : String
  top_k : Nat
  model : String
  judge : String
  accuracy : Option ℚ
  faithfulness : Option ℚ
  relevance : Option ℚ
  explanation : Option String
  chunk_size : Option Nat
  overlap : Option Nat
  temperature : ℚ
  top_p : ℚ
  latency_rag : ℚ
  latency_judge : ℚ
deriving DecidableEq

/-- An element of `generation_results` (lines 213–221): the dict
`_run_generation` returned, with the task attached.  `tIdx` is the ghost
position of that task. -/
structure GenEntry where
  successful : Bool
  answer : Option String := none
  context : Option String := none
  latency_rag : Option ℚ := none
  error : Option String := none
  task : Task
  tIdx : Nat
deriving DecidableEq

/-- Orchestrator state: accumulated results, the `current_step` counter, the
ghost call trace, the progress fractions successfully delivered to the
progress sink, and call counters indexing the sink behaviours in `Env`. -/
structure St where
  results : List Record := []
  current_step : Nat := 0
  trace : List Ev := []
  reports : List ℚ := []
  nStatus : Nat := 0
  nProgress : Nat := 0
deriving DecidableEq

/-- The fixed data of one run. -/
structure Ctx where
  env : Env
  cfg : Config
  question : String
  pb : Bool
  sp : Bool
  hasFiles : Bool

/-- `status_placeholder.info(...)` at a site not guarded by any `try`
(lines 200–201, 225–226, 230–231, 287–288): a raised exception propagates
out of `run_batch_experiment`. -/
def statusCall (c : Ctx) (s : St) : Except String St :=
  if c.sp then
    if c.env.statusFail s.nStatus then .error "status sink failure"
    else .ok { s with nStatus := s.nStatus + 1 }
  else .ok s

/-- `status_placeholder.info(...)` at a site inside a `try` (lines 217–218,
273–274): returns the updated state and whether the call raised (the caller
catches it). -/
def statusCallCaught (c : Ctx) (s : St) : St × Bool :=
  if c.sp then
    ({ s with nStatus := s.nStatus + 1 }, c.env.statusFail s.nStatus)
  else (s, false)

/-- `progress_bar.progress(min(current_step / total_steps, 1.0))` wrapped in
`try: ... except: pass` (lines 168–171, 280–283).  When `total_steps = 0` the
argument itself raises `ZeroDivisionError`, which the bare `except` swallows
before any call reaches the sink; a sink failure is likewise swallowed. -/
def progressCall (c : Ctx) (s : St) : St :=
  if c.pb then
    if totalSteps c.cfg c.hasFiles = 0 then s
    else
      { s with
        nProgress := s.nProgress + 1,
        reports :=
          if c.env.progressFail s.nProgress then s.reports
          else s.reports ++
            [min ((s.current_step : ℚ) / (totalSteps c.cfg c.hasFiles : ℚ)) 1] }
  else s

/-- The `generation_results` entry for a successful `_run_generation`. -/
def genSuccessEntry (d : GenData) (t : Task) (i : Nat) : GenEntry :=
  { successful := true, answer := some d.answer, context := some d.context,
    latency_rag := some d.latency, task := t, tIdx := i }

/-- The `generation_results` entry for a failed `_run_generation` or for an
exception caught at line 220. -/
def genFailEntry (e : String) (t : Task) (i : Nat) : GenEntry :=
  { successful := false, error := some e, task := t, tIdx := i }

/-- One Phase-1 iteration (lines 207–221) for task `i` of group `g`: if chain
setup raises, only a failure entry is appended; otherwise the generation call
happens, its entry is appended, and the per-task status update runs inside
the same `try` — if that update raises, the handler at line 220 appends one
more failure entry for the same task. -/
def phase1Step (c : Ctx) (g : Nat) (i : Nat) (t : Task) (s : St)
    (acc : List GenEntry) : St × List GenEntry :=
  match c.env.setupFail g i with
  | some e => (s, acc ++ [genFailEntry e t i])
  | none =>
    let s1 : St := { s with trace := s.trace ++ [Ev.genCall g i] }
    let entry := match c.env.genOutcome g i with
      | .ok d => genSuccessEntry d t i
      | .error e => genFailEntry e t i
    let p := statusCallCaught c s1
    if p.2 then (p.1, acc ++ [entry] ++ [genFailEntry "status sink failure" t i])
    else (p.1, acc ++ [entry])

/-- The Phase-1 loop (lines 207–221). -/
def phase1Go (c : Ctx) (g : Nat) :
    List (Nat × Task) → St → List GenEntry → St × List GenEntry
  | [], s, acc => (s, acc)
  | (i, t) :: rest, s, acc =>
    let p := phase1Step c g i t s acc
    phase1Go c g rest p.1 p.2

/-- The result row built at lines 253–269. -/
def recordOf (c : Ctx) (g : Nat) (e : GenEntry) (jd : JudgeData) : Record :=
  { gIdx := g, tIdx := e.tIdx, question := c.question,
    answer := e.answer.getD "", top_k := e.task.k,
    model := c.cfg.model_name, judge := c.cfg.judge_model,
    accuracy := jd.score.accuracy, faithfulness := jd.score.faithfulness,
    relevance := jd.score.relevance, explanation := jd.score.explanation,
    chunk_size := e.task.chunk_size, overlap := e.task.chunk_overlap,
    temperature := e.task.temperature, top_p := e.task.top_p,
    latency_rag := e.latency_rag.getD 0, latency_judge := jd.latency }

/-- One Phase-2 iteration (lines 238–283).  A failed generation skips the
judge and only ticks `current_step` (no progress report, lines 241–244).
Otherwise the judge runs; on success the row is appended; the per-iteration
status update is inside the `try` whose handler (lines 276–277) merely logs;
then `current_step` ticks and the guarded progress report runs. -/
def phase2Step (c : Ctx) (g : Nat) (e : GenEntry) (s : St) : St :=
  if e.successful = false then
    { s with current_step := s.current_step + 1 }
  else
    let s1 : St := { s with trace := s.trace ++ [Ev.judgeCall g e.tIdx] }
    let s2 := match c.env.judgeOutcome g e.tIdx with
      | .ok jd => { s1 with results := s1.results ++ [recordOf c g e jd] }
      | .error _ => s1
    let s3 := (statusCallCaught c s2).1
    progressCall c { s3 with current_step := s3.current_step + 1 }

/-- The Phase-2 loop (lines 238–283). -/
def phase2Go (c : Ctx) (g : Nat) : List GenEntry → St → St
  | [], s => s
  | e :: rest, s => phase2Go c g rest (phase2Step c g e s)

/-- The generator release (lines 223–227): only when the generator model is
Ollama-hosted; the status notice at line 226 is unprotected. -/
def releaseGen (c : Ctx) (g : Nat) (s : St) : Except String St :=
  if containsSub "Ollama" c.cfg.model_name then
    match statusCall c s with
    | .error e => .error e
    | .ok s2 =>
      .ok { s2 with trace := s2.trace ++ [Ev.genRelease g c.cfg.model_name] }
  else .ok s

/-- The judge release (lines 285–289). -/
def releaseJudge (c : Ctx) (g : Nat) (s : St) : Except String St :=
  if containsSub "Ollama" c.cfg.judge_model then
    match statusCall c s with
    | .error e => .error e
    | .ok s2 =>
      .ok { s2 with trace := s2.trace ++ [Ev.judgeRelease g c.cfg.judge_model] }
  else .ok s

/-- Both phases and both releases for group `g` (lines 199–289), entered once
ingestion for the group has succeeded (or is absent).  The judge model
initialisation at lines 235–236 is assumed not to raise. -/
def runPhases (c : Ctx) (g : Nat) (pair : Option (Nat × Nat)) (s : St) :
    Except String St :=
  match statusCall c s with
  | .error e => .error e
  | .ok s1 =>
    let p := phase1Go c g (groupTasks c.cfg c.hasFiles pair).enum s1 []
    match releaseGen c g p.1 with
    | .error e => .error e
    | .ok s3 =>
      match statusCall c s3 with
      | .error e => .error e
      | .ok s4 => releaseJudge c g (phase2Go c g p.2 s4)

/-- One iteration of the main loop (lines 159–289) for the group at grid
position `g`.  An invalid pair (`overlap >= size`) skips the group but
advances `current_step` by the full quota and reports progress; a split or
index-build failure advances the quota without a progress report. -/
def runGroup (c : Ctx) (rawDocs : List String) (g : Nat)
    (pair : Option (Nat × Nat)) (s : St) : Except String St :=
  match pair with
  | none => runPhases c g none s
  | some (cs, co) =>
    if cs ≤ co then
      .ok (progressCall c { s with current_step := s.current_step + quota c.cfg c.hasFiles })
    else
      let s1 : St := { s with trace := s.trace ++ [Ev.splitCall g cs co] }
      match c.env.splitDocs rawDocs cs co with
      | .error _ => .ok { s1 with current_step := s1.current_step + quota c.cfg c.hasFiles }
      | .ok chunks =>
        let s2 : St := { s1 with trace := s1.trace ++ [Ev.buildCall g cs co] }
        match c.env.buildIndex chunks with
        | .error _ => .ok { s2 with current_step := s2.current_step + quota c.cfg c.hasFiles }
        | .ok _ => runPhases c g (some (cs, co)) s2

/-- The main loop over the (position-tagged) ingestion pairs. -/
def runGroupsGo (c : Ctx) (rawDocs : List String) :
    List (Nat × Option (Nat × Nat)) → St → Except String St
  | [], s => .ok s
  | (g, pair) :: rest, s =>
    match runGroup c rawDocs g pair s with
    | .error e => .error e
    | .ok s1 => runGroupsGo c rawDocs rest s1

/-- The pre-load loop (lines 143–154).  Returns the loaded documents, or
`none` when some load raised — in which case `run_batch_experiment` logs the
error and returns the empty result list (it does not re-raise). -/
def loadAll (env : Env) : List String → St → List String →
    St × Option (List String)
  | [], s, acc => (s, some acc)
  | f :: rest, s, acc =>
    let s1 : St := { s with trace := s.trace ++ [Ev.load f] }
    match env.loadDoc f with
    | .error _ => (s1, none)
    | .ok ds => loadAll env rest s1 (acc ++ ds)

/-- What a finished (non-raising) run exposes: the returned result list plus
the ghost observables. -/
structure RunOut where
  results : List Record
  trace : List Ev
  reports : List ℚ
  current_step : Nat
deriving DecidableEq

/-- Package a final state. -/
def finishSt (s : St) (results : List Record) : RunOut :=
  ⟨results, s.trace, s.reports, s.current_step⟩

/-- `run_batch_experiment` (lines 108–291).  `.error` models an exception
propagating to the caller; `.ok` a normal return, whose `results` field is the
returned list.  The early exits (unreachable Ollama, a document failing to
load, no documents loaded) all return `[]` normally. -/
def run_batch_experiment (env : Env) (file_paths : List String) (cfg : Config)
    (question : String) (pb sp : Bool) : Except String RunOut :=
  let hasFiles := !file_paths.isEmpty
  let c : Ctx := ⟨env, cfg, question, pb, sp, hasFiles⟩
  if (containsSub "Ollama" cfg.model_name || containsSub "Ollama" cfg.judge_model)
      && !env.ollamaReachable then
    .ok (finishSt {} [])
  else if hasFiles then
    match loadAll env file_paths {} [] with
    | (s, none) => .ok (finishSt s [])
    | (s, some rawDocs) =>
      if rawDocs.isEmpty then .ok (finishSt s [])
      else
        match runGroupsGo c rawDocs (ingestionParams cfg hasFiles).enum s with
        | .error e => .error e
        | .ok s1 => .ok (finishSt s1 s1.results)
  else
    match runGroupsGo c [] (ingestionParams cfg hasFiles).enum {} with
    | .error e => .error e
    | .ok s1 => .ok (finishSt s1 s1.results)

/-! ### Derived descriptions of a run (used to state and prove the claims)

The following definitions re-express, group by group, what `run_batch_experiment`
appends to the trace, the results and the counters; the `*_spec` lemmas below
prove that the orchestrator matches them whenever the status sink does not
raise. -/

/-- Whether an `Except` value is a success. -/
def isOkE : Except ε α → Bool
  | .ok _ => true
  | .error _ => false

/-- Phase 1 succeeds for task `i` of group `g`: chain setup does not raise and
`_run_generation` returns a success dict. -/
def genOk (c : Ctx) (g i : Nat) : Bool :=
  (c.env.setupFail g i).isNone && isOkE (c.env.genOutcome g i)

/-- The `generation_results` entry produced for task `i` of group `g`. -/
def entryOf (c : Ctx) (g i : Nat) (t : Task) : GenEntry :=
  match c.env.setupFail g i with
  | some e => genFailEntry e t i
  | none =>
    match c.env.genOutcome g i with
    | .ok d => genSuccessEntry d t i
    | .error e => genFailEntry e t i

/-- The `generation_results` list of group `g` (status sink not raising). -/
def entriesOf (c : Ctx) (g : Nat) (pair : Option (Nat × Nat)) : List GenEntry :=
  (groupTasks c.cfg c.hasFiles pair).enum.map (fun it => entryOf c g it.1 it.2)

/-- The Phase-1 generation-call events of group `g`: one per task whose chain
setup does not raise. -/
def gcallsDelta (c : Ctx) (g : Nat) (its : List (Nat × Task)) : List Ev :=
  (its.filter (fun it => (c.env.setupFail g it.1).isNone)).map
    (fun it => Ev.genCall g it.1)

/-- The generator-release events of group `g` (one iff the generator is
Ollama-hosted). -/
def grelDelta (c : Ctx) (g : Nat) : List Ev :=
  if containsSub "Ollama" c.cfg.model_name then
    [Ev.genRelease g c.cfg.model_name]
  else []

/-- The Phase-2 judge-call events of group `g`: one per successful
generation entry. -/
def jcallsDelta (c : Ctx) (g : Nat) (entries : List GenEntry) : List Ev :=
  (entries.filter (fun e => e.successful)).map (fun e => Ev.judgeCall g e.tIdx)

/-- The judge-release events of group `g`. -/
def jrelDelta (c : Ctx) (g : Nat) : List Ev :=
  if containsSub "Ollama" c.cfg.judge_model then
    [Ev.judgeRelease g c.cfg.judge_model]
  else []

/-- The result row group `g` appends for one generation entry, if any:
only successful generations are judged, and only successful judgements
produce a row. -/
def recOfEntry (c : Ctx) (g : Nat) (e : GenEntry) : Option Record :=
  if e.successful then
    match c.env.judgeOutcome g e.tIdx with
    | .ok jd => some (recordOf c g e jd)
    | .error _ => none
  else none

/-- The result rows appended by Phase 2 for a list of generation entries. -/
def recsDelta (c : Ctx) (g : Nat) (entries : List GenEntry) : List Record :=
  entries.filterMap (recOfEntry c g)

/-- Whether the group with this ingestion pair gets to run its phases:
a degenerate (no-files) group always does; a grid pair must be valid
(`overlap < size`) and its split and index build must succeed. -/
def groupRuns (c : Ctx) (rd : List String) : Option (Nat × Nat) → Bool
  | none => true
  | some (cs, co) =>
    if cs ≤ co then false
    else
      match c.env.splitDocs rd cs co with
      | .error _ => false
      | .ok chunks => isOkE (c.env.buildIndex chunks)

/-- The ingestion events of the group: none for an invalid pair, the split
call alone when splitting raises, split then build otherwise. -/
def ingestDelta (c : Ctx) (rd : List String) (g : Nat) :
    Option (Nat × Nat) → List Ev
  | none => []
  | some (cs, co) =>
    if cs ≤ co then []
    else
      match c.env.splitDocs rd cs co with
      | .error _ => [Ev.splitCall g cs co]
      | .ok _ => [Ev.splitCall g cs co, Ev.buildCall g cs co]

/-- The phase events of group `g` when it runs. -/
def phasesDelta (c : Ctx) (g : Nat) (pair : Option (Nat × Nat)) : List Ev :=
  gcallsDelta c g (groupTasks c.cfg c.hasFiles pair).enum ++ grelDelta c g ++
    jcallsDelta c g (entriesOf c g pair) ++ jrelDelta c g

/-- Everything group `g` appends to the trace. -/
def groupDelta (c : Ctx) (rd : List String) (g : Nat)
    (pair : Option (Nat × Nat)) : List Ev :=
  ingestDelta c rd g pair ++
    (if groupRuns c rd pair then phasesDelta c g pair else [])

/-- Everything group `g` appends to the result list. -/
def groupRecs (c : Ctx) (rd : List String) (g : Nat)
    (pair : Option (Nat × Nat)) : List Record :=
  if groupRuns c rd pair then recsDelta c g (entriesOf c g pair) else []

/-- The documents `raw_docs` accumulated by the pre-load loop. -/
def docsOf (env : Env) (file_paths : List String) : List String :=
  file_paths.flatMap (fun f =>
    match env.loadDoc f with
    | .ok ds => ds
    | .error _ => [])

/-- The grid-position tag of an event (`none` for a load event). -/
def Ev.tagG : Ev → Option Nat
  | .load _ => none
  | .splitCall g _ _ => some g
  | .buildCall g _ _ => some g
  | .genCall g _ => some g
  | .genRelease g _ => some g
  | .judgeCall g _ => some g
  | .judgeRelease g _ => some g

/-! ### Benign-status specifications of the orchestrator's pieces -/

/-- The state after a non-raising status call. -/
def stBump (c : Ctx) (s : St) : St :=
  if c.sp then { s with nStatus := s.nStatus + 1 } else s

theorem stBump_proj (c : Ctx) (s : St) :
    (stBump c s).results = s.results ∧
    (stBump c s).current_step = s.current_step ∧
    (stBump c s).trace = s.trace ∧
    (stBump c s).reports = s.reports ∧
    (stBump c s).nProgress = s.nProgress := by
  unfold stBump; split <;> simp

theorem statusCall_benign (c : Ctx) (hb : ∀ n, c.env.statusFail n = false)
    (s : St) : statusCall c s = .ok (stBump c s) := by
  unfold statusCall stBump
  split <;> simp [hb]

theorem statusCallCaught_benign (c : Ctx) (hb : ∀ n, c.env.statusFail n = false)
    (s : St) : statusCallCaught c s = (stBump c s, false) := by
  unfold statusCallCaught stBump
  split <;> simp [hb]

theorem progressCall_proj (c : Ctx) (s : St) :
    (progressCall c s).results = s.results ∧
    (progressCall c s).current_step = s.current_step ∧
    (progressCall c s).trace = s.trace ∧
    (progressCall c s).nStatus = s.nStatus ∧
    ∃ rep, (progressCall c s).reports = s.reports ++ rep := by
  unfold progressCall
  split
  · split
    · exact ⟨rfl, rfl, rfl, rfl, [], by simp⟩
    · refine ⟨rfl, rfl, rfl, rfl, ?_⟩
      split
      · exact ⟨[], by simp⟩
      · exact ⟨_, rfl⟩
  · exact ⟨rfl, rfl, rfl, rfl, [], by simp⟩

theorem length_flatMap_const {l : List α} {f : α → List β} {n : Nat}
    (h : ∀ a ∈ l, (f a).length = n) : (l.flatMap f).length = l.length * n := by
  induction l with
  | nil => simp
  | cons a as ih =>
    rw [List.flatMap_cons, List.length_append, h a (by simp),
      ih (fun x hx => h x (by simp [hx])), List.length_cons]
    ring

theorem groupTasks_length (cfg : Config) (hf : Bool) (pair : Option (Nat × Nat)) :
    (groupTasks cfg hf pair).length = quota cfg hf := by
  unfold groupTasks quota
  exact length_flatMap_const (fun a _ => by simp)

theorem phase1Go_spec (c : Ctx) (g : Nat) (hb : ∀ n, c.env.statusFail n = false) :
    ∀ (its : List (Nat × Task)) (s : St) (acc : List GenEntry),
      ((phase1Go c g its s acc).1.results = s.results ∧
       (phase1Go c g its s acc).1.current_step = s.current_step ∧
       (phase1Go c g its s acc).1.reports = s.reports ∧
       (phase1Go c g its s acc).1.nProgress = s.nProgress) ∧
      (phase1Go c g its s acc).1.trace = s.trace ++ gcallsDelta c g its ∧
      (phase1Go c g its s acc).2 =
        acc ++ its.map (fun it => entryOf c g it.1 it.2) := by
  intro its
  induction its with
  | nil => intro s acc; simp [phase1Go, gcallsDelta]
  | cons it rest ih =>
    intro s acc
    obtain ⟨i, t⟩ := it
    have hstep : phase1Step c g i t s acc =
        match c.env.setupFail g i with
        | some e => (s, acc ++ [genFailEntry e t i])
        | none =>
          (stBump c { s with trace := s.trace ++ [Ev.genCall g i] },
           acc ++ [entryOf c g i t]) := by
      unfold phase1Step
      cases hsf : c.env.setupFail g i with
      | some e => simp
      | none =>
        simp only [statusCallCaught_benign c hb]
        simp [entryOf, hsf]
    cases hsf : c.env.setupFail g i with
    | some e =>
      rw [hsf] at hstep
      simp only [phase1Go, hstep]
      have h := ih s (acc ++ [genFailEntry e t i])
      refine ⟨h.1, ?_, ?_⟩
      · rw [h.2.1]
        simp [gcallsDelta, hsf]
      · rw [h.2.2]
        simp [entryOf, hsf]
    | none =>
      rw [hsf] at hstep
      simp only [phase1Go, hstep]
      set s1 := stBump c { s with trace := s.trace ++ [Ev.genCall g i] } with hs1
      have hp := stBump_proj c { s with trace := s.trace ++ [Ev.genCall g i] }
      have h := ih s1 (acc ++ [entryOf c g i t])
      refine ⟨?_, ?_, ?_⟩
      · rw [← hs1] at hp
        exact ⟨by rw [h.1.1, hp.1], by rw [h.1.2.1, hp.2.1],
          by rw [h.1.2.2.1, hp.2.2.2.1], by rw [h.1.2.2.2, hp.2.2.2.2]⟩
      · rw [h.2.1, ← hs1] at *
        rw [hp.2.2.1]
        simp [gcallsDelta, hsf, List.append_assoc]
      · rw [h.2.2]
        simp

@[simp] theorem stBump_results (c : Ctx) (s : St) :
    (stBump c s).results = s.results := by unfold stBump; split <;> rfl

@[simp] theorem stBump_step (c : Ctx) (s : St) :
    (stBump c s).current_step = s.current_step := by
  unfold stBump; split <;> rfl

@[simp] theorem stBump_trace (c : Ctx) (s : St) :
    (stBump c s).trace = s.trace := by unfold stBump; split <;> rfl

@[simp] theorem stBump_reports (c : Ctx) (s : St) :
    (stBump c s).reports = s.reports := by unfold stBump; split <;> rfl

@[simp] theorem stBump_nProgress (c : Ctx) (s : St) :
    (stBump c s).nProgress = s.nProgress := by unfold stBump; split <;> rfl

@[simp] theorem progressCall_results (c : Ctx) (s : St) :
    (progressCall c s).results = s.results := by
  unfold progressCall; split <;> try split <;> try split
  all_goals rfl

@[simp] theorem progressCall_step (c : Ctx) (s : St) :
    (progressCall c s).current_step = s.current_step := by
  unfold progressCall; split <;> try split <;> try split
  all_goals rfl

@[simp] theorem progressCall_trace (c : Ctx) (s : St) :
    (progressCall c s).trace = s.trace := by
  unfold progressCall; split <;> try split <;> try split
  all_goals rfl

@[simp] theorem progressCall_nStatus (c : Ctx) (s : St) :
    (progressCall c s).nStatus = s.nStatus := by
  unfold progressCall; split <;> try split <;> try split
  all_goals rfl

theorem progressCall_reports_from {s : St} (c : Ctx) (t : St)
    (h : t.reports = s.reports) :
    ∃ rep, (progressCall c t).reports = s.reports ++ rep := by
  unfold progressCall
  split
  · split
    · exact ⟨[], by simp [h]⟩
    · split
      · exact ⟨[], by simp [h]⟩
      · refine ⟨[min ((t.current_step : ℚ) /
            (totalSteps c.cfg c.hasFiles : ℚ)) 1], ?_⟩
        simp [h]
  · exact ⟨[], by simp [h]⟩

theorem phase2Step_benign (c : Ctx) (g : Nat)
    (hb : ∀ n, c.env.statusFail n = false) (e : GenEntry) (s : St) :
    (phase2Step c g e s).results =
      s.results ++ (recOfEntry c g e).toList ∧
    (phase2Step c g e s).current_step = s.current_step + 1 ∧
    (phase2Step c g e s).trace =
      s.trace ++ (if e.successful then [Ev.judgeCall g e.tIdx] else []) ∧
    ∃ rep, (phase2Step c g e s).reports = s.reports ++ rep := by
  unfold phase2Step
  by_cases hsucc : e.successful
  · simp only [hsucc, Bool.true_eq_false, if_false]
    simp only [statusCallCaught_benign c hb]
    cases hj : c.env.judgeOutcome g e.tIdx with
    | ok jd =>
      refine ⟨by simp [recOfEntry, hsucc, hj], by simp, by simp [hsucc],
        progressCall_reports_from c _ (by simp)⟩
    | error e2 =>
      refine ⟨by simp [recOfEntry, hsucc, hj], by simp, by simp [hsucc],
        progressCall_reports_from c _ (by simp)⟩
  · simp only [Bool.not_eq_true] at hsucc
    simp [hsucc, recOfEntry]

theorem phase2Go_spec (c : Ctx) (g : Nat)
    (hb : ∀ n, c.env.statusFail n = false) :
    ∀ (entries : List GenEntry) (s : St),
      (phase2Go c g entries s).results = s.results ++ recsDelta c g entries ∧
      (phase2Go c g entries s).current_step =
        s.current_step + entries.length ∧
      (phase2Go c g entries s).trace = s.trace ++ jcallsDelta c g entries ∧
      ∃ rep, (phase2Go c g entries s).reports = s.reports ++ rep := by
  intro entries
  induction entries with
  | nil => intro s; simp [phase2Go, recsDelta, jcallsDelta]
  | cons e rest ih =>
    intro s
    simp only [phase2Go]
    have hstep := phase2Step_benign c g hb e s
    have h := ih (phase2Step c g e s)
    obtain ⟨rep1, hrep1⟩ := hstep.2.2.2
    obtain ⟨rep2, hrep2⟩ := h.2.2.2
    refine ⟨?_, ?_, ?_, ⟨rep1 ++ rep2, ?_⟩⟩
    · rw [h.1, hstep.1]
      cases hro : recOfEntry c g e <;>
        simp [recsDelta, List.filterMap_cons, hro]
    · rw [h.2.1, hstep.2.1]
      simp [List.length_cons]
      omega
    · rw [h.2.2.1, hstep.2.2.1]
      by_cases hsucc : e.successful <;>
        simp [jcallsDelta, hsucc, List.append_assoc]
    · rw [hrep2, hrep1]
      simp

theorem releaseGen_benign (c : Ctx) (g : Nat)
    (hb : ∀ n, c.env.statusFail n = false) (s : St) :
    ∃ s2, releaseGen c g s = .ok s2 ∧
      s2.results = s.results ∧ s2.current_step = s.current_step ∧
      s2.trace = s.trace ++ grelDelta c g ∧ s2.reports = s.reports := by
  unfold releaseGen grelDelta
  split
  · rw [statusCall_benign c hb]
    have hp := stBump_proj c s
    exact ⟨_, rfl, by simp [hp.1], by simp [hp.2.1], by simp [hp.2.2.1],
      by simp [hp.2.2.2.1]⟩
  · exact ⟨s, rfl, rfl, rfl, by simp, rfl⟩

theorem releaseJudge_benign (c : Ctx) (g : Nat)
    (hb : ∀ n, c.env.statusFail n = false) (s : St) :
    ∃ s2, releaseJudge c g s = .ok s2 ∧
      s2.results = s.results ∧ s2.current_step = s.current_step ∧
      s2.trace = s.trace ++ jrelDelta c g ∧ s2.reports = s.reports := by
  unfold releaseJudge jrelDelta
  split
  · rw [statusCall_benign c hb]
    have hp := stBump_proj c s
    exact ⟨_, rfl, by simp [hp.1], by simp [hp.2.1], by simp [hp.2.2.1],
      by simp [hp.2.2.2.1]⟩
  · exact ⟨s, rfl, rfl, rfl, by simp, rfl⟩

theorem runPhases_spec (c : Ctx) (g : Nat)
    (hb : ∀ n, c.env.statusFail n = false) (pair : Option (Nat × Nat))
    (s : St) :
    ∃ s2, runPhases c g pair s = .ok s2 ∧
      s2.results = s.results ++ recsDelta c g (entriesOf c g pair) ∧
      s2.current_step = s.current_step + quota c.cfg c.hasFiles ∧
      s2.trace = s.trace ++ phasesDelta c g pair ∧
      ∃ rep, s2.reports = s.reports ++ rep := by
  unfold runPhases
  rw [statusCall_benign c hb]
  have hp0 := stBump_proj c s
  have h1 := phase1Go_spec c g hb (groupTasks c.cfg c.hasFiles pair).enum
    (stBump c s) []
  obtain ⟨sg, hsg, hgr, hgs, hgt, hgrep⟩ :=
    releaseGen_benign c g hb (phase1Go c g
      (groupTasks c.cfg c.hasFiles pair).enum (stBump c s) []).1
  simp only [hsg]
  rw [statusCall_benign c hb]
  have hpg := stBump_proj c sg
  have h2 := phase2Go_spec c g hb
    (phase1Go c g (groupTasks c.cfg c.hasFiles pair).enum (stBump c s) []).2
    (stBump c sg)
  obtain ⟨sj, hsj, hjr, hjs, hjt, hjrep⟩ :=
    releaseJudge_benign c g hb (phase2Go c g
      (phase1Go c g (groupTasks c.cfg c.hasFiles pair).enum (stBump c s) []).2
      (stBump c sg))
  simp only [hsj]
  obtain ⟨rep2, hrep2⟩ := h2.2.2.2
  refine ⟨sj, rfl, ?_, ?_, ?_, ?_⟩
  · rw [hjr, h2.1, hpg.1, hgr, h1.1.1, hp0.1]
    congr 1
    rw [h1.2.2]
    simp [entriesOf]
  · rw [hjs, h2.2.1, hpg.2.1, hgs, h1.1.2.1, hp0.2.1]
    rw [h1.2.2]
    simp [List.enum_length, groupTasks_length]
  · rw [hjt, h2.2.2.1, hpg.2.2.1, hgt, h1.2.1, hp0.2.2.1]
    rw [h1.2.2]
    simp only [List.nil_append, phasesDelta, entriesOf, List.append_assoc]
  · rw [hjrep, hrep2, hpg.2.2.2.1, hgrep, h1.1.2.2.1, hp0.2.2.2.1]
    exact ⟨rep2, rfl⟩

theorem runGroup_spec (c : Ctx) (rd : List String)
    (hb : ∀ n, c.env.statusFail n = false) (g : Nat)
    (pair : Option (Nat × Nat)) (s : St) :
    ∃ s2, runGroup c rd g pair s = .ok s2 ∧
      s2.results = s.results ++ groupRecs c rd g pair ∧
      s2.current_step = s.current_step + quota c.cfg c.hasFiles ∧
      s2.trace = s.trace ++ groupDelta c rd g pair ∧
      ∃ rep, s2.reports = s.reports ++ rep := by
  cases pair with
  | none =>
    obtain ⟨s2, hs2, h1, h2, h3, h4⟩ := runPhases_spec c g hb none s
    exact ⟨s2, hs2, by simpa [groupRecs, groupRuns] using h1, h2,
      by simpa [groupDelta, groupRuns, ingestDelta] using h3, h4⟩
  | some p =>
    obtain ⟨cs, co⟩ := p
    unfold runGroup
    by_cases hvalid : cs ≤ co
    · simp only [if_pos hvalid]
      have hp := progressCall_proj c
        { s with current_step := s.current_step + quota c.cfg c.hasFiles }
      obtain ⟨rep, hrep⟩ := hp.2.2.2.2
      exact ⟨_, rfl, by simp [hp.1, groupRecs, groupRuns, if_pos hvalid],
        by simp [hp.2.1],
        by simp [hp.2.2.1, groupDelta, groupRuns, ingestDelta, if_pos hvalid],
        ⟨rep, by simp [hrep]⟩⟩
    · simp only [if_neg hvalid]
      cases hsp : c.env.splitDocs rd cs co with
      | error e2 =>
        dsimp only
        refine ⟨_, rfl, ?_, ?_, ?_, ⟨[], by simp⟩⟩
        · simp [groupRecs, groupRuns, if_neg hvalid, hsp]
        · simp
        · simp [groupDelta, groupRuns, ingestDelta, if_neg hvalid, hsp]
      | ok chunks =>
        dsimp only
        cases hbv : c.env.buildIndex chunks with
        | error e2 =>
          dsimp only
          refine ⟨_, rfl, ?_, ?_, ?_, ⟨[], by simp⟩⟩
          · simp [groupRecs, groupRuns, if_neg hvalid, hsp, hbv, isOkE]
          · simp
          · simp [groupDelta, groupRuns, ingestDelta, if_neg hvalid, hsp, hbv,
              isOkE]
        | ok u =>
          obtain ⟨s2, hs2, h1, h2, h3, h4⟩ := runPhases_spec c g hb
            (some (cs, co))
            { s with trace := (s.trace ++ [Ev.splitCall g cs co]) ++
                [Ev.buildCall g cs co] }
          refine ⟨s2, hs2, ?_, ?_, ?_, ?_⟩
          · rw [h1]
            simp [groupRecs, groupRuns, if_neg hvalid, hsp, hbv, isOkE]
          · rw [h2]
          · rw [h3]
            simp [groupDelta, groupRuns, ingestDelta, if_neg hvalid, hsp, hbv,
              isOkE, List.append_assoc]
          · obtain ⟨rep, hrep⟩ := h4
            exact ⟨rep, by rw [hrep]⟩

theorem runGroupsGo_spec (c : Ctx) (rd : List String)
    (hb : ∀ n, c.env.statusFail n = false) :
    ∀ (l : List (Nat × Option (Nat × Nat))) (s : St),
      ∃ s2, runGroupsGo c rd l s = .ok s2 ∧
        s2.results = s.results ++
          (l.map (fun gp => groupRecs c rd gp.1 gp.2)).flatten ∧
        s2.current_step =
          s.current_step + l.length * quota c.cfg c.hasFiles ∧
        s2.trace = s.trace ++
          (l.map (fun gp => groupDelta c rd gp.1 gp.2)).flatten ∧
        ∃ rep, s2.reports = s.reports ++ rep := by
  intro l
  induction l with
  | nil => intro s; exact ⟨s, rfl, by simp, by simp, by simp, ⟨[], by simp⟩⟩
  | cons gp rest ih =>
    intro s
    obtain ⟨s1, hs1, h1, h2, h3, rep1, hrep1⟩ :=
      runGroup_spec c rd hb gp.1 gp.2 s
    obtain ⟨s2, hs2, g1, g2, g3, rep2, hrep2⟩ := ih s1
    refine ⟨s2, ?_, ?_, ?_, ?_, ⟨rep1 ++ rep2, ?_⟩⟩
    · simp only [runGroupsGo, hs1, hs2]
    · rw [g1, h1]; simp
    · rw [g2, h2]; simp [List.length_cons]; ring
    · rw [g3, h3]; simp
    · rw [hrep2, hrep1]; simp

theorem loadAll_ok (env : Env) :
    ∀ (fps : List String), (∀ f ∈ fps, isOkE (env.loadDoc f) = true) →
      ∀ (s : St) (acc : List String),
        loadAll env fps s acc =
          ({ s with trace := s.trace ++ fps.map Ev.load },
            some (acc ++ docsOf env fps)) := by
  intro fps
  induction fps with
  | nil => intro _ s acc; simp [loadAll, docsOf]
  | cons f rest ih =>
    intro hok s acc
    have hf := hok f (by simp)
    cases hld : env.loadDoc f with
    | error e => rw [hld] at hf; simp [isOkE] at hf
    | ok ds =>
      simp only [loadAll, hld]
      rw [ih (fun x hx => hok x (by simp [hx]))]
      simp [docsOf, List.flatMap_cons, hld, List.append_assoc]

theorem loadAll_proj (env : Env) :
    ∀ (fps : List String) (s : St) (acc : List String),
      (loadAll env fps s acc).1.results = s.results ∧
      (loadAll env fps s acc).1.current_step = s.current_step ∧
      (loadAll env fps s acc).1.reports = s.reports ∧
      ∃ evs, (loadAll env fps s acc).1.trace = s.trace ++ evs ∧
        ∀ e ∈ evs, Ev.tagG e = none := by
  intro fps
  induction fps with
  | nil =>
    intro s acc
    refine ⟨?_, ?_, ?_, [], ?_, by simp⟩ <;> simp [loadAll]
  | cons f rest ih =>
    intro s acc
    cases hld : env.loadDoc f with
    | error e =>
      refine ⟨?_, ?_, ?_, [Ev.load f], ?_, ?_⟩
      · simp [loadAll, hld]
      · simp [loadAll, hld]
      · simp [loadAll, hld]
      · simp [loadAll, hld]
      · intro e2 he2
        simp only [List.mem_singleton] at he2
        subst he2
        rfl
    | ok ds =>
      obtain ⟨h1, h2, h3, evs, hevs, htags⟩ :=
        ih { s with trace := s.trace ++ [Ev.load f] } (acc ++ ds)
      refine ⟨?_, ?_, ?_, Ev.load f :: evs, ?_, ?_⟩
      · simp only [loadAll, hld]; exact h1
      · simp only [loadAll, hld]; exact h2
      · simp only [loadAll, hld]; exact h3
      · simp only [loadAll, hld]; rw [hevs]; simp
      · intro e2 he2
        rcases List.mem_cons.mp he2 with h | h
        · subst h; rfl
        · exact htags e2 h

/-- The per-run context. -/
def mkCtx (env : Env) (cfg : Config) (q : String) (pb sp : Bool)
    (hf : Bool) : Ctx := ⟨env, cfg, q, pb, sp, hf⟩

/-- The trace/results/step decomposition of a completed run on documents:
status sink never raising, the local server reachable, every document
loading, at least one document unit loaded. -/
theorem run_spec (env : Env) (fp : List String) (cfg : Config) (q : String)
    (pb sp : Bool) (hb : ∀ n, env.statusFail n = false)
    (hre : env.ollamaReachable = true) (hfp : fp ≠ [])
    (hok : ∀ f ∈ fp, isOkE (env.loadDoc f) = true)
    (hdocs : docsOf env fp ≠ []) :
    ∃ out, run_batch_experiment env fp cfg q pb sp = .ok out ∧
      out.trace = fp.map Ev.load ++
        ((ingestionParams cfg true).enum.map
          (fun gp => groupDelta (mkCtx env cfg q pb sp true) (docsOf env fp)
            gp.1 gp.2)).flatten ∧
      out.results = ((ingestionParams cfg true).enum.map
          (fun gp => groupRecs (mkCtx env cfg q pb sp true) (docsOf env fp)
            gp.1 gp.2)).flatten ∧
      out.current_step =
        (ingestionParams cfg true).length * quota cfg true := by
  have hhf : fp.isEmpty = false := by
    cases fp with
    | nil => exact absurd rfl hfp
    | cons a l => rfl
  unfold run_batch_experiment
  simp only [hhf, hre, Bool.not_true, Bool.and_false, Bool.not_false,
    if_false, Bool.false_eq_true, if_true]
  rw [loadAll_ok env fp hok ({} : St) []]
  have hde : (docsOf env fp).isEmpty = false := by
    cases hcd : docsOf env fp with
    | nil => exact absurd hcd hdocs
    | cons a l => rfl
  simp only [List.nil_append, hde, Bool.false_eq_true, if_false]
  obtain ⟨s2, hs2, h1, h2, h3, _⟩ :=
    runGroupsGo_spec (⟨env, cfg, q, pb, sp, true⟩ : Ctx) (docsOf env fp) hb
      (ingestionParams cfg true).enum { trace := fp.map Ev.load }
  rw [hs2]
  refine ⟨finishSt s2 s2.results, rfl, ?_, ?_, ?_⟩
  · show s2.trace = _
    rw [h3]
    simp [mkCtx, List.enum_length]
  · show s2.results = _
    rw [h1]
    simp [mkCtx]
  · show s2.current_step = _
    rw [h2]
    simp [List.enum_length]

/-- The same decomposition for a run without documents: one degenerate
group. -/
theorem run_spec_nofiles (env : Env) (cfg : Config) (q : String)
    (pb sp : Bool) (hb : ∀ n, env.statusFail n = false)
    (hre : env.ollamaReachable = true) :
    ∃ out, run_batch_experiment env [] cfg q pb sp = .ok out ∧
      out.trace = ((ingestionParams cfg false).enum.map
          (fun gp => groupDelta (mkCtx env cfg q pb sp false) []
            gp.1 gp.2)).flatten ∧
      out.results = ((ingestionParams cfg false).enum.map
          (fun gp => groupRecs (mkCtx env cfg q pb sp false) []
            gp.1 gp.2)).flatten ∧
      out.current_step =
        (ingestionParams cfg false).length * quota cfg false := by
  unfold run_batch_experiment
  simp only [hre, Bool.not_true, Bool.and_false, List.isEmpty_nil,
    Bool.not_false, Bool.false_eq_true, if_false]
  obtain ⟨s2, hs2, h1, h2, h3, _⟩ :=
    runGroupsGo_spec (⟨env, cfg, q, pb, sp, false⟩ : Ctx) [] hb
      (ingestionParams cfg false).enum ({} : St)
  rw [hs2]
  refine ⟨finishSt s2 s2.results, rfl, ?_, ?_, ?_⟩
  · show s2.trace = _
    rw [h3]; simp [mkCtx, List.enum_length]
  · show s2.results = _
    rw [h1]; simp [mkCtx]
  · show s2.current_step = _
    rw [h2]; simp [List.enum_length]

/-! ### Ordering of events in a trace -/

/-- In `tr`, every position holding an event satisfying `P` comes strictly
before every position holding an event satisfying `Q`. -/
def allBefore (tr : List Ev) (P Q : Ev → Bool) : Prop :=
  ∀ (p q : Nat) (hp : p < tr.length) (hq : q < tr.length),
    P (tr.get ⟨p, hp⟩) = true → Q (tr.get ⟨q, hq⟩) = true → p < q

theorem allBefore_parts (a b : List Ev) (P Q : Ev → Bool)
    (ha : ∀ e ∈ a, Q e = false) (hbq : ∀ e ∈ b, P e = false) :
    allBefore (a ++ b) P Q := by
  intro p q hp hq hP hQ
  have hpa : p < a.length := by
    by_contra hcon
    push_neg at hcon
    have hmem : (a ++ b).get ⟨p, hp⟩ ∈ b := by
      rw [List.get_eq_getElem, List.getElem_append_right hcon]
      exact List.getElem_mem _
    rw [hbq _ hmem] at hP
    exact Bool.false_ne_true hP
  have hqa : a.length ≤ q := by
    by_contra hcon
    push_neg at hcon
    have hmem : (a ++ b).get ⟨q, hq⟩ ∈ a := by
      rw [List.get_eq_getElem, List.getElem_append_left hcon]
      exact List.getElem_mem _
    rw [ha _ hmem] at hQ
    exact Bool.false_ne_true hQ
  omega

theorem allBefore_of_noP (tr : List Ev) (P Q : Ev → Bool)
    (h : ∀ e ∈ tr, P e = false) : allBefore tr P Q := by
  intro p q hp hq hP _
  rw [h _ (tr.get_mem _ _)] at hP
  exact absurd hP (Bool.false_ne_true)

/-- Per-group event predicates for the ordering claims. -/
def isGenCallG (g : Nat) : Ev → Bool
  | .genCall g2 _ => decide (g2 = g)
  | _ => false

def isGenRelG (g : Nat) : Ev → Bool
  | .genRelease g2 _ => decide (g2 = g)
  | _ => false

def isJudgeCallG (g : Nat) : Ev → Bool
  | .judgeCall g2 _ => decide (g2 = g)
  | _ => false

def isJudgeRelG (g : Nat) : Ev → Bool
  | .judgeRelease g2 _ => decide (g2 = g)
  | _ => false

theorem isGenCallG_tag {g : Nat} {e : Ev} (h : isGenCallG g e = true) :
    Ev.tagG e = some g := by
  cases e <;> simp_all [isGenCallG, Ev.tagG]

theorem isGenRelG_tag {g : Nat} {e : Ev} (h : isGenRelG g e = true) :
    Ev.tagG e = some g := by
  cases e <;> simp_all [isGenRelG, Ev.tagG]

theorem isJudgeCallG_tag {g : Nat} {e : Ev} (h : isJudgeCallG g e = true) :
    Ev.tagG e = some g := by
  cases e <;> simp_all [isJudgeCallG, Ev.tagG]

theorem isJudgeRelG_tag {g : Nat} {e : Ev} (h : isJudgeRelG g e = true) :
    Ev.tagG e = some g := by
  cases e <;> simp_all [isJudgeRelG, Ev.tagG]

/-! #### Shapes of the per-group deltas -/

theorem mem_ingestDelta {c : Ctx} {rd : List String} {g : Nat}
    {pair : Option (Nat × Nat)} {e : Ev} (h : e ∈ ingestDelta c rd g pair) :
    ∃ cs co, (e = Ev.splitCall g cs co ∨ e = Ev.buildCall g cs co) ∧
      co < cs := by
  cases pair with
  | none => simp [ingestDelta] at h
  | some p =>
    obtain ⟨cs, co⟩ := p
    unfold ingestDelta at h
    dsimp only at h
    by_cases hv : cs ≤ co
    · simp [hv] at h
    · rw [if_neg hv] at h
      cases hsp : c.env.splitDocs rd cs co with
      | error e2 =>
        rw [hsp] at h
        simp only [List.mem_singleton] at h
        exact ⟨cs, co, .inl h, by omega⟩
      | ok chunks =>
        rw [hsp] at h
        rcases List.mem_cons.mp h with h2 | h2
        · exact ⟨cs, co, .inl h2, by omega⟩
        · simp only [List.mem_singleton] at h2
          exact ⟨cs, co, .inr h2, by omega⟩

theorem mem_gcallsDelta {c : Ctx} {g : Nat} {its : List (Nat × Task)} {e : Ev}
    (h : e ∈ gcallsDelta c g its) : ∃ i, e = Ev.genCall g i := by
  unfold gcallsDelta at h
  obtain ⟨it, _, rfl⟩ := List.mem_map.mp h
  exact ⟨it.1, rfl⟩

theorem mem_grelDelta {c : Ctx} {g : Nat} {e : Ev} (h : e ∈ grelDelta c g) :
    e = Ev.genRelease g c.cfg.model_name := by
  unfold grelDelta at h
  split at h
  · simpa using h
  · simp at h

theorem mem_jcallsDelta {c : Ctx} {g : Nat} {entries : List GenEntry} {e : Ev}
    (h : e ∈ jcallsDelta c g entries) : ∃ i, e = Ev.judgeCall g i := by
  unfold jcallsDelta at h
  obtain ⟨en, _, rfl⟩ := List.mem_map.mp h
  exact ⟨en.tIdx, rfl⟩

theorem mem_jrelDelta {c : Ctx} {g : Nat} {e : Ev} (h : e ∈ jrelDelta c g) :
    e = Ev.judgeRelease g c.cfg.judge_model := by
  unfold jrelDelta at h
  split at h
  · simpa using h
  · simp at h

theorem tagG_groupDelta {c : Ctx} {rd : List String} {g : Nat}
    {pair : Option (Nat × Nat)} {e : Ev} (h : e ∈ groupDelta c rd g pair) :
    Ev.tagG e = some g := by
  unfold groupDelta at h
  rcases List.mem_append.mp h with h2 | h2
  · obtain ⟨cs, co, hsh, _⟩ := mem_ingestDelta h2
    rcases hsh with rfl | rfl <;> rfl
  · split at h2
    · unfold phasesDelta at h2
      rcases List.mem_append.mp h2 with h3 | h3
      · rcases List.mem_append.mp h3 with h4 | h4
        · rcases List.mem_append.mp h4 with h5 | h5
          · obtain ⟨i, rfl⟩ := mem_gcallsDelta h5; rfl
          · rw [mem_grelDelta h5]; rfl
        · obtain ⟨i, rfl⟩ := mem_jcallsDelta h4; rfl
      · rw [mem_jrelDelta h3]; rfl
    · simp at h2

/-! #### Extracting one group's segment from the flattened trace -/

theorem enumFrom_fst_ge {k : Nat} {ps : List α} {gp : Nat × α}
    (h : gp ∈ ps.enumFrom k) : k ≤ gp.1 := by
  induction ps generalizing k with
  | nil => simp [List.enumFrom] at h
  | cons p rest ih =>
    rcases List.mem_cons.mp h with h2 | h2
    · subst h2; rfl
    · exact Nat.le_of_succ_le (ih h2)

theorem flatten_extract (f : Nat × Option (Nat × Nat) → List Ev)
    (htag : ∀ gp e, e ∈ f gp → Ev.tagG e = some gp.1) :
    ∀ (ps : List (Option (Nat × Nat))) (k g0 : Nat)
      (pair : Option (Nat × Nat)), (g0, pair) ∈ ps.enumFrom k →
      ∃ A B, ((ps.enumFrom k).map f).flatten = A ++ f (g0, pair) ++ B ∧
        (∀ e ∈ A, Ev.tagG e ≠ some g0) ∧ (∀ e ∈ B, Ev.tagG e ≠ some g0) := by
  intro ps
  induction ps with
  | nil => intro k g0 pair h; simp [List.enumFrom] at h
  | cons p rest ih =>
    intro k g0 pair h
    rcases List.mem_cons.mp h with h2 | h2
    · have hg : g0 = k := congrArg Prod.fst h2
      have hp : pair = p := congrArg Prod.snd h2
      subst hg
      subst hp
      refine ⟨[], ((rest.enumFrom (g0 + 1)).map f).flatten, ?_, by simp, ?_⟩
      · rw [show List.enumFrom g0 (pair :: rest) =
          (g0, pair) :: rest.enumFrom (g0 + 1) from rfl]
        simp only [List.map_cons, List.flatten_cons, List.nil_append]
      · intro e he
        obtain ⟨l, hl, hel⟩ := List.mem_flatten.mp he
        obtain ⟨gp, hgp, rfl⟩ := List.mem_map.mp hl
        rw [htag gp e hel]
        have hge := enumFrom_fst_ge hgp
        intro hcon
        have := Option.some.inj hcon
        omega
    · obtain ⟨A, B, hdec, hA, hB⟩ := ih (k + 1) g0 pair h2
      refine ⟨f (k, p) ++ A, B, ?_, ?_, hB⟩
      · rw [show List.enumFrom k (p :: rest) = (k, p) :: rest.enumFrom (k + 1)
          from rfl]
        simp only [List.map_cons, List.flatten_cons, hdec, List.append_assoc]
      · intro e he
        rcases List.mem_append.mp he with h3 | h3
        · rw [htag (k, p) e h3]
          have hge := enumFrom_fst_ge h2
          intro hcon
          have := Option.some.inj hcon
          omega
        · exact hA e h3

theorem flatten_absent (f : Nat × Option (Nat × Nat) → List Ev)
    (htag : ∀ gp e, e ∈ f gp → Ev.tagG e = some gp.1)
    (ps : List (Option (Nat × Nat))) (k g0 : Nat)
    (hg : ∀ pair, ¬((g0, pair) ∈ ps.enumFrom k)) :
    ∀ e ∈ ((ps.enumFrom k).map f).flatten, Ev.tagG e ≠ some g0 := by
  intro e he
  obtain ⟨l, hl, hel⟩ := List.mem_flatten.mp he
  obtain ⟨gp, hgp, rfl⟩ := List.mem_map.mp hl
  rw [htag gp e hel]
  intro hcon
  have hc2 := Option.some.inj hcon
  apply hg gp.2
  have hpe : gp = (g0, gp.2) := by rw [← hc2]
  rw [← hpe]
  exact hgp

theorem preds_false_of_tag_ne {g0 : Nat} {e : Ev} (h : Ev.tagG e ≠ some g0) :
    isGenCallG g0 e = false ∧ isGenRelG g0 e = false ∧
    isJudgeCallG g0 e = false ∧ isJudgeRelG g0 e = false := by
  refine ⟨?_, ?_, ?_, ?_⟩
  · cases hv : isGenCallG g0 e
    · rfl
    · exact absurd (isGenCallG_tag hv) h
  · cases hv : isGenRelG g0 e
    · rfl
    · exact absurd (isGenRelG_tag hv) h
  · cases hv : isJudgeCallG g0 e
    · rfl
    · exact absurd (isJudgeCallG_tag hv) h
  · cases hv : isJudgeRelG g0 e
    · rfl
    · exact absurd (isJudgeRelG_tag hv) h

theorem ingest_preds_false (g0 : Nat) {c : Ctx} {rd : List String} {g : Nat}
    {pair : Option (Nat × Nat)} :
    ∀ e ∈ ingestDelta c rd g pair,
      isGenCallG g0 e = false ∧ isGenRelG g0 e = false ∧
      isJudgeCallG g0 e = false ∧ isJudgeRelG g0 e = false := by
  intro e he
  obtain ⟨cs, co, hsh, _⟩ := mem_ingestDelta he
  rcases hsh with rfl | rfl <;> exact ⟨rfl, rfl, rfl, rfl⟩

theorem gcalls_preds_false (g0 : Nat) {c : Ctx} {g : Nat}
    {its : List (Nat × Task)} :
    ∀ e ∈ gcallsDelta c g its,
      isGenRelG g0 e = false ∧ isJudgeCallG g0 e = false ∧
      isJudgeRelG g0 e = false := by
  intro e he
  obtain ⟨i, rfl⟩ := mem_gcallsDelta he
  exact ⟨rfl, rfl, rfl⟩

theorem grel_preds_false (g0 : Nat) {c : Ctx} {g : Nat} :
    ∀ e ∈ grelDelta c g,
      isGenCallG g0 e = false ∧ isJudgeCallG g0 e = false ∧
      isJudgeRelG g0 e = false := by
  intro e he
  rw [mem_grelDelta he]
  exact ⟨rfl, rfl, rfl⟩

theorem jcalls_preds_false (g0 : Nat) {c : Ctx} {g : Nat}
    {entries : List GenEntry} :
    ∀ e ∈ jcallsDelta c g entries,
      isGenCallG g0 e = false ∧ isGenRelG g0 e = false ∧
      isJudgeRelG g0 e = false := by
  intro e he
  obtain ⟨i, rfl⟩ := mem_jcallsDelta he
  exact ⟨rfl, rfl, rfl⟩

theorem jrel_preds_false (g0 : Nat) {c : Ctx} {g : Nat} :
    ∀ e ∈ jrelDelta c g,
      isGenCallG g0 e = false ∧ isGenRelG g0 e = false ∧
      isJudgeCallG g0 e = false := by
  intro e he
  rw [mem_jrelDelta he]
  exact ⟨rfl, rfl, rfl⟩

theorem countP_zero_of_false {P : Ev → Bool} {l : List Ev}
    (h : ∀ e ∈ l, P e = false) : l.countP P = 0 :=
  List.countP_eq_zero.mpr (fun e he => by simp [h e he])

theorem groupDelta_count_genRel (g0 : Nat) (c : Ctx) (rd : List String)
    (g : Nat) (pair : Option (Nat × Nat)) :
    (groupDelta c rd g pair).countP (isGenRelG g0) ≤ 1 := by
  unfold groupDelta
  rw [List.countP_append,
    countP_zero_of_false (fun e he => (ingest_preds_false g0 e he).2.1)]
  simp only [Nat.zero_add]
  split
  · unfold phasesDelta
    simp only [List.countP_append]
    rw [countP_zero_of_false (fun e he => (gcalls_preds_false g0 e he).1),
      countP_zero_of_false (fun e he => (jcalls_preds_false g0 e he).2.1),
      countP_zero_of_false (fun e he => (jrel_preds_false g0 e he).2.1)]
    have h1 : (grelDelta c g).countP (isGenRelG g0) ≤
        (grelDelta c g).length := List.countP_le_length _
    have h2 : (grelDelta c g).length ≤ 1 := by
      unfold grelDelta; split <;> simp
    omega
  · simp

theorem groupDelta_count_judgeRel (g0 : Nat) (c : Ctx) (rd : List String)
    (g : Nat) (pair : Option (Nat × Nat)) :
    (groupDelta c rd g pair).countP (isJudgeRelG g0) ≤ 1 := by
  unfold groupDelta
  rw [List.countP_append,
    countP_zero_of_false (fun e he => (ingest_preds_false g0 e he).2.2.2)]
  simp only [Nat.zero_add]
  split
  · unfold phasesDelta
    simp only [List.countP_append]
    rw [countP_zero_of_false (fun e he => (gcalls_preds_false g0 e he).2.2),
      countP_zero_of_false (fun e he => (grel_preds_false g0 e he).2.2),
      countP_zero_of_false (fun e he => (jcalls_preds_false g0 e he).2.2)]
    have h1 : (jrelDelta c g).countP (isJudgeRelG g0) ≤
        (jrelDelta c g).length := List.countP_le_length _
    have h2 : (jrelDelta c g).length ≤ 1 := by
      unfold jrelDelta; split <;> simp
    omega
  · simp

theorem allBefore_master (pre A D1 D2 B : List Ev) (P Q : Ev → Bool)
    (h1 : ∀ e ∈ pre, Q e = false) (h2 : ∀ e ∈ A, Q e = false)
    (h3 : ∀ e ∈ D1, Q e = false) (h4 : ∀ e ∈ D2, P e = false)
    (h5 : ∀ e ∈ B, P e = false) :
    allBefore (pre ++ (A ++ (D1 ++ D2) ++ B)) P Q := by
  have heq : pre ++ (A ++ (D1 ++ D2) ++ B) =
      (pre ++ A ++ D1) ++ (D2 ++ B) := by simp [List.append_assoc]
  rw [heq]
  apply allBefore_parts
  · intro e he
    rcases List.mem_append.mp he with he2 | he2
    · rcases List.mem_append.mp he2 with he3 | he3
      · exact h1 e he3
      · exact h2 e he3
    · exact h3 e he2
  · intro e he
    rcases List.mem_append.mp he with he2 | he2
    · exact h4 e he2
    · exact h5 e he2

/-- The five per-group release facts of claim C6, for any trace of the shape
"context-free prefix ++ flattened per-group deltas". -/
theorem groupProps (c : Ctx) (rd : List String) (pre : List Ev)
    (hpre : ∀ e ∈ pre, Ev.tagG e = none)
    (ps : List (Option (Nat × Nat))) (g0 : Nat) :
    (pre ++ ((ps.enum.map
        (fun gp => groupDelta c rd gp.1 gp.2)).flatten)).countP
      (isGenRelG g0) ≤ 1 ∧
    (pre ++ ((ps.enum.map
        (fun gp => groupDelta c rd gp.1 gp.2)).flatten)).countP
      (isJudgeRelG g0) ≤ 1 ∧
    allBefore (pre ++ ((ps.enum.map
        (fun gp => groupDelta c rd gp.1 gp.2)).flatten))
      (isGenCallG g0) (isGenRelG g0) ∧
    allBefore (pre ++ ((ps.enum.map
        (fun gp => groupDelta c rd gp.1 gp.2)).flatten))
      (isGenRelG g0) (isJudgeCallG g0) ∧
    allBefore (pre ++ ((ps.enum.map
        (fun gp => groupDelta c rd gp.1 gp.2)).flatten))
      (isJudgeCallG g0) (isJudgeRelG g0) := by
  have htag : ∀ (gp : Nat × Option (Nat × Nat)) (e : Ev),
      e ∈ (fun gp => groupDelta c rd gp.1 gp.2) gp → Ev.tagG e = some gp.1 :=
    fun gp e he => tagG_groupDelta he
  have henum : ps.enum = ps.enumFrom 0 := rfl
  by_cases hex : ∃ pair, (g0, pair) ∈ ps.enumFrom 0
  · obtain ⟨pair, hmem⟩ := hex
    obtain ⟨A, B, hdec, hA, hB⟩ :=
      flatten_extract _ htag ps 0 g0 pair hmem
    rw [henum, hdec]
    have hpre2 : ∀ e ∈ pre, Ev.tagG e ≠ some g0 := by
      intro e he; rw [hpre e he]; simp
    refine ⟨?_, ?_, ?_, ?_, ?_⟩
    · simp only [List.countP_append]
      rw [countP_zero_of_false
          (fun e he => (preds_false_of_tag_ne (hpre2 e he)).2.1),
        countP_zero_of_false
          (fun e he => (preds_false_of_tag_ne (hA e he)).2.1),
        countP_zero_of_false
          (fun e he => (preds_false_of_tag_ne (hB e he)).2.1)]
      have := groupDelta_count_genRel g0 c rd g0 pair
      omega
    · simp only [List.countP_append]
      rw [countP_zero_of_false
          (fun e he => (preds_false_of_tag_ne (hpre2 e he)).2.2.2),
        countP_zero_of_false
          (fun e he => (preds_false_of_tag_ne (hA e he)).2.2.2),
        countP_zero_of_false
          (fun e he => (preds_false_of_tag_ne (hB e he)).2.2.2)]
      have := groupDelta_count_judgeRel g0 c rd g0 pair
      omega
    · by_cases hruns : groupRuns c rd pair = true
      · have hsplit : groupDelta c rd g0 pair =
            (ingestDelta c rd g0 pair ++
              gcallsDelta c g0 (groupTasks c.cfg c.hasFiles pair).enum) ++
            (grelDelta c g0 ++ (jcallsDelta c g0 (entriesOf c g0 pair) ++
              jrelDelta c g0)) := by
          simp [groupDelta, phasesDelta, hruns, List.append_assoc]
        rw [hsplit]
        apply allBefore_master
        · exact fun e he => (preds_false_of_tag_ne (hpre2 e he)).2.1
        · exact fun e he => (preds_false_of_tag_ne (hA e he)).2.1
        · intro e he
          rcases List.mem_append.mp he with h3 | h3
          · exact (ingest_preds_false g0 e h3).2.1
          · exact (gcalls_preds_false g0 e h3).1
        · intro e he
          rcases List.mem_append.mp he with h3 | h3
          · exact (grel_preds_false g0 e h3).1
          · rcases List.mem_append.mp h3 with h4 | h4
            · exact (jcalls_preds_false g0 e h4).1
            · exact (jrel_preds_false g0 e h4).1
        · exact fun e he => (preds_false_of_tag_ne (hB e he)).1
      · have hsplit : groupDelta c rd g0 pair =
            ingestDelta c rd g0 pair ++ ([] : List Ev) := by
          simp [groupDelta, hruns]
        rw [hsplit]
        apply allBefore_master
        · exact fun e he => (preds_false_of_tag_ne (hpre2 e he)).2.1
        · exact fun e he => (preds_false_of_tag_ne (hA e he)).2.1
        · exact fun e he => (ingest_preds_false g0 e he).2.1
        · intro e he; simp at he
        · exact fun e he => (preds_false_of_tag_ne (hB e he)).1
    · by_cases hruns : groupRuns c rd pair = true
      · have hsplit : groupDelta c rd g0 pair =
            (ingestDelta c rd g0 pair ++
              (gcallsDelta c g0 (groupTasks c.cfg c.hasFiles pair).enum ++
                grelDelta c g0)) ++
            (jcallsDelta c g0 (entriesOf c g0 pair) ++ jrelDelta c g0) := by
          simp [groupDelta, phasesDelta, hruns, List.append_assoc]
        rw [hsplit]
        apply allBefore_master
        · exact fun e he => (preds_false_of_tag_ne (hpre2 e he)).2.2.1
        · exact fun e he => (preds_false_of_tag_ne (hA e he)).2.2.1
        · intro e he
          rcases List.mem_append.mp he with h3 | h3
          · exact (ingest_preds_false g0 e h3).2.2.1
          · rcases List.mem_append.mp h3 with h4 | h4
            · exact (gcalls_preds_false g0 e h4).2.1
            · exact (grel_preds_false g0 e h4).2.1
        · intro e he
          rcases List.mem_append.mp he with h3 | h3
          · exact (jcalls_preds_false g0 e h3).2.1
          · exact (jrel_preds_false g0 e h3).2.1
        · exact fun e he => (preds_false_of_tag_ne (hB e he)).2.1
      · have hsplit : groupDelta c rd g0 pair =
            ingestDelta c rd g0 pair ++ ([] : List Ev) := by
          simp [groupDelta, hruns]
        rw [hsplit]
        apply allBefore_master
        · exact fun e he => (preds_false_of_tag_ne (hpre2 e he)).2.2.1
        · exact fun e he => (preds_false_of_tag_ne (hA e he)).2.2.1
        · exact fun e he => (ingest_preds_false g0 e he).2.2.1
        · intro e he; simp at he
        · exact fun e he => (preds_false_of_tag_ne (hB e he)).2.1
    · by_cases hruns : groupRuns c rd pair = true
      · have hsplit : groupDelta c rd g0 pair =
            (ingestDelta c rd g0 pair ++
              (gcallsDelta c g0 (groupTasks c.cfg c.hasFiles pair).enum ++
                (grelDelta c g0 ++ jcallsDelta c g0 (entriesOf c g0 pair)))) ++
            jrelDelta c g0 := by
          simp [groupDelta, phasesDelta, hruns, List.append_assoc]
        rw [hsplit, show (ingestDelta c rd g0 pair ++
            (gcallsDelta c g0 (groupTasks c.cfg c.hasFiles pair).enum ++
              (grelDelta c g0 ++ jcallsDelta c g0 (entriesOf c g0 pair)))) ++
            jrelDelta c g0 =
            (ingestDelta c rd g0 pair ++
              (gcallsDelta c g0 (groupTasks c.cfg c.hasFiles pair).enum ++
                (grelDelta c g0 ++ jcallsDelta c g0 (entriesOf c g0 pair)))) ++
            (jrelDelta c g0 ++ []) from by simp]
        apply allBefore_master
        · exact fun e he => (preds_false_of_tag_ne (hpre2 e he)).2.2.2
        · exact fun e he => (preds_false_of_tag_ne (hA e he)).2.2.2
        · intro e he
          rcases List.mem_append.mp he with h3 | h3
          · exact (ingest_preds_false g0 e h3).2.2.2
          · rcases List.mem_append.mp h3 with h4 | h4
            · exact (gcalls_preds_false g0 e h4).2.2
            · rcases List.mem_append.mp h4 with h5 | h5
              · exact (grel_preds_false g0 e h5).2.2
              · exact (jcalls_preds_false g0 e h5).2.2
        · intro e he
          rcases List.mem_append.mp he with h3 | h3
          · exact (jrel_preds_false g0 e h3).2.2
          · simp at h3
        · exact fun e he => (preds_false_of_tag_ne (hB e he)).2.2.1
      · have hsplit : groupDelta c rd g0 pair =
            ingestDelta c rd g0 pair ++ ([] : List Ev) := by
          simp [groupDelta, hruns]
        rw [hsplit]
        apply allBefore_master
        · exact fun e he => (preds_false_of_tag_ne (hpre2 e he)).2.2.2
        · exact fun e he => (preds_false_of_tag_ne (hA e he)).2.2.2
        · exact fun e he => (ingest_preds_false g0 e he).2.2.2
        · intro e he; simp at he
        · exact fun e he => (preds_false_of_tag_ne (hB e he)).2.2.1
  · push_neg at hex
    have habs := flatten_absent _ htag ps 0 g0 hex
    have hall : ∀ e ∈ pre ++ ((ps.enum.map
        (fun gp => groupDelta c rd gp.1 gp.2)).flatten),
        Ev.tagG e ≠ some g0 := by
      intro e he
      rcases List.mem_append.mp he with h2 | h2
      · rw [hpre e h2]; simp
      · exact habs e (by rw [henum] at h2; exact h2)
    refine ⟨?_, ?_, ?_, ?_, ?_⟩
    · rw [countP_zero_of_false
        (fun e he => (preds_false_of_tag_ne (hall e he)).2.1)]
      omega
    · rw [countP_zero_of_false
        (fun e he => (preds_false_of_tag_ne (hall e he)).2.2.2)]
      omega
    · exact allBefore_of_noP _ _ _
        (fun e he => (preds_false_of_tag_ne (hall e he)).1)
    · exact allBefore_of_noP _ _ _
        (fun e he => (preds_false_of_tag_ne (hall e he)).2.1)
    · exact allBefore_of_noP _ _ _
        (fun e he => (preds_false_of_tag_ne (hall e he)).2.2.1)

/-- The C6 facts for a trace with no group-tagged events at all. -/
theorem groupProps_none (tr : List Ev) (h : ∀ e ∈ tr, Ev.tagG e = none)
    (g0 : Nat) :
    tr.countP (isGenRelG g0) ≤ 1 ∧ tr.countP (isJudgeRelG g0) ≤ 1 ∧
    allBefore tr (isGenCallG g0) (isGenRelG g0) ∧
    allBefore tr (isGenRelG g0) (isJudgeCallG g0) ∧
    allBefore tr (isJudgeCallG g0) (isJudgeRelG g0) := by
  have hne : ∀ e ∈ tr, Ev.tagG e ≠ some g0 := by
    intro e he; rw [h e he]; simp
  refine ⟨?_, ?_, ?_, ?_, ?_⟩
  · rw [countP_zero_of_false
      (fun e he => (preds_false_of_tag_ne (hne e he)).2.1)]
    omega
  · rw [countP_zero_of_false
      (fun e he => (preds_false_of_tag_ne (hne e he)).2.2.2)]
    omega
  · exact allBefore_of_noP _ _ _
      (fun e he => (preds_false_of_tag_ne (hne e he)).1)
  · exact allBefore_of_noP _ _ _
      (fun e he => (preds_false_of_tag_ne (hne e he)).2.1)
  · exact allBefore_of_noP _ _ _
      (fun e he => (preds_false_of_tag_ne (hne e he)).2.2.1)

/-- Any run whose status sink never raises completes normally, and its trace
is a load-only prefix, possibly followed by the flattened per-group deltas. -/
theorem run_trace_shape (env : Env) (fp : List String) (cfg : Config)
    (q : String) (pb sp : Bool) (hb : ∀ n, env.statusFail n = false) :
    ∃ out, run_batch_experiment env fp cfg q pb sp = .ok out ∧
      ((∀ e ∈ out.trace, Ev.tagG e = none) ∨
        (∃ pre rd hf, (∀ e ∈ pre, Ev.tagG e = none) ∧
          out.trace = pre ++ (((ingestionParams cfg hf).enum.map
            (fun gp => groupDelta (⟨env, cfg, q, pb, sp, hf⟩ : Ctx) rd
              gp.1 gp.2)).flatten))) := by
  unfold run_batch_experiment
  dsimp only
  split
  · exact ⟨_, rfl, .inl (by simp [finishSt])⟩
  · by_cases hhf : fp.isEmpty
    · rw [if_neg (by simp [hhf])]
      obtain ⟨s2, hs2, _, _, h3, _⟩ :=
        runGroupsGo_spec (⟨env, cfg, q, pb, sp, !fp.isEmpty⟩ : Ctx) [] hb
          (ingestionParams cfg (!fp.isEmpty)).enum ({} : St)
      rw [hs2]
      refine ⟨_, rfl, .inr ⟨[], [], !fp.isEmpty, by simp, ?_⟩⟩
      show s2.trace = _
      rw [h3]
    · rw [if_pos (by simp [hhf])]
      rcases hload : loadAll env fp ({} : St) [] with ⟨s, odocs⟩
      obtain ⟨_, _, _, evs, hevs, htags⟩ := loadAll_proj env fp ({} : St) []
      rw [hload] at hevs
      simp only at hevs
      cases odocs with
      | none =>
        dsimp only
        refine ⟨_, rfl, .inl ?_⟩
        intro e he
        apply htags
        have : s.trace = evs := by simpa using hevs
        rw [show (finishSt s []).trace = s.trace from rfl, this] at he
        exact he
      | some rawDocs =>
        dsimp only
        by_cases hde : rawDocs.isEmpty
        · rw [if_pos hde]
          refine ⟨_, rfl, .inl ?_⟩
          intro e he
          apply htags
          have : s.trace = evs := by simpa using hevs
          rw [show (finishSt s []).trace = s.trace from rfl, this] at he
          exact he
        · rw [if_neg hde]
          obtain ⟨s2, hs2, _, _, h3, _⟩ :=
            runGroupsGo_spec (⟨env, cfg, q, pb, sp, !fp.isEmpty⟩ : Ctx)
              rawDocs hb (ingestionParams cfg (!fp.isEmpty)).enum s
          rw [hs2]
          refine ⟨_, rfl, .inr ⟨evs, rawDocs, !fp.isEmpty, htags, ?_⟩⟩
          show s2.trace = _
          rw [h3, hevs]
          simp

/-! ### Per-task facts (claim C7) -/

theorem entryOf_tIdx (c : Ctx) (g i : Nat) (t : Task) :
    (entryOf c g i t).tIdx = i := by
  unfold entryOf genFailEntry genSuccessEntry
  cases c.env.setupFail g i
  · cases c.env.genOutcome g i <;> rfl
  · rfl

theorem entryOf_successful (c : Ctx) (g i : Nat) (t : Task) :
    (entryOf c g i t).successful = genOk c g i := by
  unfold entryOf genOk genFailEntry genSuccessEntry isOkE
  cases hsf : c.env.setupFail g i
  · cases hgo : c.env.genOutcome g i <;> simp
  · simp

theorem mem_entriesOf {c : Ctx} {g : Nat} {pair : Option (Nat × Nat)}
    {e : GenEntry} (h : e ∈ entriesOf c g pair) :
    e.successful = genOk c g e.tIdx := by
  obtain ⟨it, _, rfl⟩ := List.mem_map.mp h
  rw [entryOf_tIdx, entryOf_successful]

theorem mem_groupRecs {c : Ctx} {rd : List String} {g : Nat}
    {pair : Option (Nat × Nat)} {r : Record}
    (h : r ∈ groupRecs c rd g pair) :
    r.gIdx = g ∧ genOk c g r.tIdx = true ∧
      isOkE (c.env.judgeOutcome g r.tIdx) = true := by
  unfold groupRecs at h
  split at h
  · unfold recsDelta at h
    obtain ⟨e, he, hre⟩ := List.mem_filterMap.mp h
    unfold recOfEntry at hre
    split at hre
    · rename_i hsucc
      cases hj : c.env.judgeOutcome g e.tIdx with
      | ok jd =>
        rw [hj] at hre
        simp only [Option.some.injEq] at hre
        subst hre
        have h1 : (recordOf c g e jd).gIdx = g := rfl
        have h2 : (recordOf c g e jd).tIdx = e.tIdx := rfl
        refine ⟨h1, ?_, ?_⟩
        · rw [h2, ← mem_entriesOf he, hsucc]
        · rw [h2, hj]; rfl
      | error e2 => rw [hj] at hre; simp at hre
    · simp at hre
  · simp at h

theorem mem_enumFrom_of_lt {l : List α} :
    ∀ (k i : Nat) (hi : i < l.length),
      (k + i, l.get ⟨i, hi⟩) ∈ l.enumFrom k := by
  induction l with
  | nil => intro k i hi; simp at hi
  | cons a as ih =>
    intro k i hi
    cases i with
    | zero => simp [List.enumFrom]
    | succ j =>
      have := ih (k + 1) j (by simpa using hi)
      rw [show k + (j + 1) = (k + 1) + j by omega]
      exact List.mem_cons_of_mem _ this

theorem mem_enum_of_lt {l : List α} (i : Nat) (hi : i < l.length) :
    (i, l.get ⟨i, hi⟩) ∈ l.enum := by
  have := mem_enumFrom_of_lt 0 i hi
  simpa using this

theorem groupRecs_mem_of (c : Ctx) (rd : List String) (g : Nat)
    (pair : Option (Nat × Nat)) (hruns : groupRuns c rd pair = true)
    (i : Nat) (hi : i < (groupTasks c.cfg c.hasFiles pair).length)
    (hgen : genOk c g i = true) (jd : JudgeData)
    (hj : c.env.judgeOutcome g i = .ok jd) :
    ∃ r ∈ groupRecs c rd g pair, r.gIdx = g ∧ r.tIdx = i := by
  unfold groupRecs
  rw [if_pos hruns]
  set t := (groupTasks c.cfg c.hasFiles pair).get ⟨i, hi⟩ with ht
  have hmem : entryOf c g i t ∈ entriesOf c g pair := by
    unfold entriesOf
    exact List.mem_map.mpr ⟨(i, t), mem_enum_of_lt i hi, rfl⟩
  have hsucc : (entryOf c g i t).successful = true := by
    rw [entryOf_successful, hgen]
  have hrec : recOfEntry c g (entryOf c g i t) =
      some (recordOf c g (entryOf c g i t) jd) := by
    unfold recOfEntry
    rw [if_pos hsucc, entryOf_tIdx, hj]
  refine ⟨recordOf c g (entryOf c g i t) jd, ?_, rfl, ?_⟩
  · unfold recsDelta
    exact List.mem_filterMap.mpr ⟨entryOf c g i t, hmem, hrec⟩
  · show (entryOf c g i t).tIdx = i
    exact entryOf_tIdx c g i t

theorem judgeCall_mem_delta {c : Ctx} {rd : List String} {g2 : Nat}
    {pair : Option (Nat × Nat)} {g i : Nat}
    (h : Ev.judgeCall g i ∈ groupDelta c rd g2 pair) :
    g2 = g ∧ genOk c g i = true := by
  have htag := tagG_groupDelta h
  have hg : g2 = g := by
    have : Ev.tagG (Ev.judgeCall g i) = some g := rfl
    rw [this] at htag
    exact (Option.some.inj htag).symm
  subst hg
  refine ⟨rfl, ?_⟩
  unfold groupDelta at h
  rcases List.mem_append.mp h with h2 | h2
  · obtain ⟨cs, co, hsh, _⟩ := mem_ingestDelta h2
    rcases hsh with hsh | hsh <;> exact absurd hsh (by simp)
  · split at h2
    · unfold phasesDelta at h2
      rcases List.mem_append.mp h2 with h3 | h3
      · rcases List.mem_append.mp h3 with h4 | h4
        · rcases List.mem_append.mp h4 with h5 | h5
          · obtain ⟨j, hj⟩ := mem_gcallsDelta h5
            exact absurd hj (by simp)
          · have := mem_grelDelta h5
            exact absurd this (by simp)
        · unfold jcallsDelta at h4
          obtain ⟨e, he, heq⟩ := List.mem_map.mp h4
          have hi : e.tIdx = i := by
            have := congrArg (fun ev => match ev with
              | Ev.judgeCall _ j => j
              | _ => 0) heq
            simpa using this
          have hsucc : e.successful = true := (List.mem_filter.mp he).2
          have hmem : e ∈ entriesOf c g2 pair := (List.mem_filter.mp he).1
          rw [← hi, ← mem_entriesOf hmem, hsucc]
      · have := mem_jrelDelta h3
        exact absurd this (by simp)
    · simp at h2

theorem genCall_mem_delta_of (c : Ctx) (rd : List String) (g : Nat)
    (pair : Option (Nat × Nat)) (hruns : groupRuns c rd pair = true)
    (i : Nat) (hi : i < (groupTasks c.cfg c.hasFiles pair).length)
    (hsf : c.env.setupFail g i = none) :
    Ev.genCall g i ∈ groupDelta c rd g pair := by
  unfold groupDelta
  apply List.mem_append.mpr
  right
  rw [if_pos hruns]
  unfold phasesDelta
  apply List.mem_append.mpr; left
  apply List.mem_append.mpr; left
  apply List.mem_append.mpr; left
  unfold gcallsDelta
  apply List.mem_map.mpr
  refine ⟨(i, (groupTasks c.cfg c.hasFiles pair).get ⟨i, hi⟩), ?_, rfl⟩
  apply List.mem_filter.mpr
  exact ⟨mem_enum_of_lt i hi, by simp [hsf]⟩

theorem split_build_valid {c : Ctx} {rd : List String} {g2 : Nat}
    {pair : Option (Nat × Nat)} {g cs co : Nat}
    (h : Ev.splitCall g cs co ∈ groupDelta c rd g2 pair ∨
      Ev.buildCall g cs co ∈ groupDelta c rd g2 pair) : co < cs := by
  have hmain : ∀ e, e ∈ groupDelta c rd g2 pair →
      (e = Ev.splitCall g cs co ∨ e = Ev.buildCall g cs co) → co < cs := by
    intro e he hsh
    unfold groupDelta at he
    rcases List.mem_append.mp he with h2 | h2
    · obtain ⟨cs2, co2, hsh2, hlt⟩ := mem_ingestDelta h2
      rcases hsh with rfl | rfl <;> rcases hsh2 with h3 | h3 <;>
        first
        | (injection h3 with _ h4 h5; subst h4; subst h5; exact hlt)
        | (exact absurd h3 (by simp))
    · split at h2
      · unfold phasesDelta at h2
        rcases List.mem_append.mp h2 with h3 | h3
        · rcases List.mem_append.mp h3 with h4 | h4
          · rcases List.mem_append.mp h4 with h5 | h5
            · obtain ⟨j, hj⟩ := mem_gcallsDelta h5
              rcases hsh with rfl | rfl <;> exact absurd hj (by simp)
            · have := mem_grelDelta h5
              rcases hsh with rfl | rfl <;> exact absurd this (by simp)
          · obtain ⟨j, hj⟩ := mem_jcallsDelta h4
            rcases hsh with rfl | rfl <;> exact absurd hj (by simp)
        · have := mem_jrelDelta h3
          rcases hsh with rfl | rfl <;> exact absurd this (by simp)
      · simp at h2
  rcases h with h2 | h2
  · exact hmain _ h2 (.inl rfl)
  · exact hmain _ h2 (.inr rfl)

/-- C7: in every run (benign status sink, reachable local server, all
documents loading, at least one document unit), for every grid group and
every task position `i` in it: if Phase 1 fails for the task then no judging
call is made for it and no result row carries its tags; if the task's chain
setup succeeds and the group runs, its generation call does happen; and if
both its generation and its judgement succeed (and the group runs), a result
row with its tags is returned. -/
theorem claim_C7_failure_isolation (env : Env) (fp : List String)
    (cfg : Config) (q : String) (pb sp : Bool)
    (hb : ∀ n, env.statusFail n = false)
    (hre : env.ollamaReachable = true) (hfp : fp ≠ [])
    (hok : ∀ f ∈ fp, isOkE (env.loadDoc f) = true)
    (hdocs : docsOf env fp ≠ []) :
    ∃ out, run_batch_experiment env fp cfg q pb sp = .ok out ∧
      ∀ g pair, (g, pair) ∈ (ingestionParams cfg true).enum →
        ∀ i, i < quota cfg true →
          (genOk (mkCtx env cfg q pb sp true) g i = false →
            Ev.judgeCall g i ∉ out.trace ∧
            ∀ r ∈ out.results, ¬(r.gIdx = g ∧ r.tIdx = i)) ∧
          (env.setupFail g i = none →
            groupRuns (mkCtx env cfg q pb sp true) (docsOf env fp) pair =
              true →
            Ev.genCall g i ∈ out.trace) ∧
          (genOk (mkCtx env cfg q pb sp true) g i = true →
            groupRuns (mkCtx env cfg q pb sp true) (docsOf env fp) pair =
              true →
            ∀ jd, env.judgeOutcome g i = Except.ok jd →
              ∃ r ∈ out.results, r.gIdx = g ∧ r.tIdx = i) := by
  obtain ⟨out, hout, htr, hres, _⟩ :=
    run_spec env fp cfg q pb sp hb hre hfp hok hdocs
  refine ⟨out, hout, fun g pair hmem i hi => ⟨?_, ?_, ?_⟩⟩
  · intro hgen
    constructor
    · intro hin
      rw [htr] at hin
      rcases List.mem_append.mp hin with h2 | h2
      · obtain ⟨f, _, hf⟩ := List.mem_map.mp h2
        exact absurd hf (by simp)
      · obtain ⟨l, hl, hel⟩ := List.mem_flatten.mp h2
        obtain ⟨gp, _, rfl⟩ := List.mem_map.mp hl
        obtain ⟨_, hgenT⟩ := judgeCall_mem_delta hel
        rw [hgen] at hgenT
        exact Bool.false_ne_true hgenT
    · intro r hr hc
      obtain ⟨hg, hti⟩ := hc
      rw [hres] at hr
      obtain ⟨l, hl, hel⟩ := List.mem_flatten.mp hr
      obtain ⟨gp, _, rfl⟩ := List.mem_map.mp hl
      obtain ⟨hg2, hgen2, _⟩ := mem_groupRecs hel
      rw [hg2] at hg
      rw [hg, hti] at hgen2
      rw [hgen] at hgen2
      exact Bool.false_ne_true hgen2
  · intro hsf hruns
    rw [htr]
    apply List.mem_append.mpr
    right
    apply List.mem_flatten.mpr
    refine ⟨groupDelta (mkCtx env cfg q pb sp true) (docsOf env fp) g pair,
      List.mem_map.mpr ⟨(g, pair), hmem, rfl⟩, ?_⟩
    exact genCall_mem_delta_of (mkCtx env cfg q pb sp true) (docsOf env fp)
      g pair hruns i (by rw [groupTasks_length]; exact hi) hsf
  · intro hgen hruns jd hj
    obtain ⟨r, hr, hprops⟩ :=
      groupRecs_mem_of (mkCtx env cfg q pb sp true) (docsOf env fp) g pair
        hruns i (by rw [groupTasks_length]; exact hi) hgen jd hj
    refine ⟨r, ?_, hprops⟩
    rw [hres]
    apply List.mem_flatten.mpr
    exact ⟨groupRecs (mkCtx env cfg q pb sp true) (docsOf env fp) g pair,
      List.mem_map.mpr ⟨(g, pair), hmem, rfl⟩, hr⟩

/-- C9: split and index-build calls only ever happen for valid pairs — in any
run with a benign status sink, every split or build event in the trace has
`overlap < size` — and processing an invalid pair (`size ≤ overlap`) leaves
the trace and the results untouched while still advancing `current_step` by
the group's full quota `|k_retrievals| × |temperatures| × |top_ps|`. -/
theorem claim_C9_invalid_pairs (env : Env) (fp : List String) (cfg : Config)
    (q : String) (pb sp : Bool) (hb : ∀ n, env.statusFail n = false) :
    (∃ out, run_batch_experiment env fp cfg q pb sp = .ok out ∧
      ∀ g cs co, (Ev.splitCall g cs co ∈ out.trace ∨
        Ev.buildCall g cs co ∈ out.trace) → co < cs) ∧
    (∀ (c : Ctx) (rd : List String) (g cs co : Nat) (s : St), cs ≤ co →
      ∃ s2, runGroup c rd g (some (cs, co)) s = .ok s2 ∧
        s2.trace = s.trace ∧ s2.results = s.results ∧
        s2.current_step = s.current_step + quota c.cfg c.hasFiles) := by
  constructor
  · obtain ⟨out, hout, hshape⟩ := run_trace_shape env fp cfg q pb sp hb
    refine ⟨out, hout, fun g cs co h => ?_⟩
    rcases hshape with hnone | ⟨pre, rd, hf, hpre, htr⟩
    · exfalso
      rcases h with h2 | h2
      · have := hnone _ h2
        simp [Ev.tagG] at this
      · have := hnone _ h2
        simp [Ev.tagG] at this
    · rw [htr] at h
      have hcase : ∀ (e : Ev), e ∈ pre ++ (((ingestionParams cfg hf).enum.map
          (fun gp => groupDelta (⟨env, cfg, q, pb, sp, hf⟩ : Ctx) rd
            gp.1 gp.2)).flatten) →
          (e = Ev.splitCall g cs co ∨ e = Ev.buildCall g cs co) →
          co < cs := by
        intro e he hsh
        rcases List.mem_append.mp he with h2 | h2
        · have := hpre e h2
          rcases hsh with rfl | rfl <;> simp [Ev.tagG] at this
        · obtain ⟨l, hl, hel⟩ := List.mem_flatten.mp h2
          obtain ⟨gp, _, rfl⟩ := List.mem_map.mp hl
          apply @split_build_valid (⟨env, cfg, q, pb, sp, hf⟩ : Ctx) rd
            gp.1 gp.2 _ _ _
          rcases hsh with rfl | rfl
          · exact .inl hel
          · exact .inr hel
      rcases h with h2 | h2
      · exact hcase _ h2 (.inl rfl)
      · exact hcase _ h2 (.inr rfl)
  · intro c rd g cs co s hinv
    unfold runGroup
    dsimp only
    rw [if_pos hinv]
    exact ⟨_, rfl, by simp, by simp, by simp⟩

theorem loadAll_fails (env : Env) :
    ∀ (fps : List String), (∃ f ∈ fps, isOkE (env.loadDoc f) = false) →
      ∀ (s : St) (acc : List String), (loadAll env fps s acc).2 = none := by
  intro fps
  induction fps with
  | nil => intro h; simp at h
  | cons f rest ih =>
    intro h s acc
    cases hld : env.loadDoc f with
    | error e => simp [loadAll, hld]
    | ok ds =>
      simp only [loadAll, hld]
      apply ih
      obtain ⟨f2, hf2, hbad⟩ := h
      rcases List.mem_cons.mp hf2 with rfl | hf3
      · rw [hld] at hbad; simp [isOkE] at hbad
      · exact ⟨f2, hf3, hbad⟩

/-- C4 amended: when loading any supplied document raises, the batch run
stops before any task executes — no split, build, generation or judging call
appears in the trace — and it returns the empty result list normally to the
caller (it does not re-raise). -/
theorem claim_C4_load_failure (env : Env) (fp : List String) (cfg : Config)
    (q : String) (pb sp : Bool)
    (hfail : ∃ f ∈ fp, isOkE (env.loadDoc f) = false) :
    ∃ out, run_batch_experiment env fp cfg q pb sp = .ok out ∧
      out.results = [] ∧ ∀ e ∈ out.trace, Ev.tagG e = none := by
  have hfp : fp ≠ [] := by
    obtain ⟨f, hf, _⟩ := hfail
    intro hcon
    rw [hcon] at hf
    simp at hf
  have hhf : fp.isEmpty = false := by
    cases fp with
    | nil => exact absurd rfl hfp
    | cons a l => rfl
  unfold run_batch_experiment
  dsimp only
  split
  · exact ⟨_, rfl, rfl, by simp [finishSt]⟩
  · rw [if_pos (by simp [hhf])]
    rcases hload : loadAll env fp ({} : St) [] with ⟨s, odocs⟩
    have hnone := loadAll_fails env fp hfail ({} : St) []
    rw [hload] at hnone
    simp only at hnone
    subst hnone
    dsimp only
    obtain ⟨_, _, _, evs, hevs, htags⟩ := loadAll_proj env fp ({} : St) []
    rw [hload] at hevs
    simp only at hevs
    refine ⟨_, rfl, rfl, ?_⟩
    intro e he
    apply htags
    have h2 : s.trace = evs := by simpa using hevs
    rw [show (finishSt s []).trace = s.trace from rfl, h2] at he
    exact he

/-! ### Counting index builds (claim C2) -/

/-- An index-build event for the pair (cs, co), any grid position. -/
def Ev.isBuildOf2 (cs co : Nat) : Ev → Bool
  | .buildCall _ a b => decide (a = cs) && decide (b = co)
  | _ => false

theorem phases_no_build (cs co : Nat) (c : Ctx) (g : Nat)
    (pair : Option (Nat × Nat)) :
    (phasesDelta c g pair).countP (Ev.isBuildOf2 cs co) = 0 := by
  apply countP_zero_of_false
  intro e he
  unfold phasesDelta at he
  rcases List.mem_append.mp he with h3 | h3
  · rcases List.mem_append.mp h3 with h4 | h4
    · rcases List.mem_append.mp h4 with h5 | h5
      · obtain ⟨j, rfl⟩ := mem_gcallsDelta h5; rfl
      · rw [mem_grelDelta h5]; rfl
    · obtain ⟨j, rfl⟩ := mem_jcallsDelta h4; rfl
  · rw [mem_jrelDelta h3]; rfl

theorem groupDelta_build_count (c : Ctx) (rd : List String) (cs co : Nat)
    (hco : co < cs) (hsplit : isOkE (c.env.splitDocs rd cs co) = true)
    (g : Nat) (pair : Option (Nat × Nat)) :
    (groupDelta c rd g pair).countP (Ev.isBuildOf2 cs co) =
      if pair = some (cs, co) then 1 else 0 := by
  unfold groupDelta
  rw [List.countP_append]
  have hphase : (if groupRuns c rd pair = true then phasesDelta c g pair
      else []).countP (Ev.isBuildOf2 cs co) = 0 := by
    split
    · exact phases_no_build cs co c g pair
    · rfl
  rw [hphase, Nat.add_zero]
  cases pair with
  | none => simp [ingestDelta]
  | some p =>
    obtain ⟨cs2, co2⟩ := p
    unfold ingestDelta
    dsimp only
    by_cases hv : cs2 ≤ co2
    · rw [if_pos hv]
      rw [if_neg (by
        intro hcon
        have h1 : cs2 = cs := congrArg (fun x => (Option.getD x (0, 0)).1) hcon
        have h2 : co2 = co := congrArg (fun x => (Option.getD x (0, 0)).2) hcon
        omega)]
      rfl
    · rw [if_neg hv]
      by_cases heq : cs2 = cs ∧ co2 = co
      · obtain ⟨rfl, rfl⟩ := heq
        cases hsp : c.env.splitDocs rd cs2 co2 with
        | error e =>
          rw [hsp] at hsplit
          simp [isOkE] at hsplit
        | ok chunks =>
          rw [if_pos rfl]
          simp [List.countP_cons, Ev.isBuildOf2]
      · have hne : some (cs2, co2) ≠ some (cs, co) := by
          intro hcon
          have h1 : cs2 = cs := congrArg (fun x => (Option.getD x (0, 0)).1) hcon
          have h2 : co2 = co := congrArg (fun x => (Option.getD x (0, 0)).2) hcon
          exact heq ⟨h1, h2⟩
        rw [if_neg hne]
        cases hsp : c.env.splitDocs rd cs2 co2 with
        | error e => simp [List.countP_cons, Ev.isBuildOf2, hne]
        | ok chunks =>
          simp only [List.countP_cons, List.countP_nil]
          have hb2 : Ev.isBuildOf2 cs co (Ev.buildCall g cs2 co2) = false := by
            unfold Ev.isBuildOf2
            simp only [Bool.and_eq_false_iff, decide_eq_false_iff_not]
            by_contra hcon
            push_neg at hcon
            exact heq ⟨hcon.1, hcon.2⟩
          simp [Ev.isBuildOf2] at hb2 ⊢
          omega

theorem build_count_go (c : Ctx) (rd : List String) (cs co : Nat)
    (hco : co < cs) (hsplit : isOkE (c.env.splitDocs rd cs co) = true) :
    ∀ (ps : List (Option (Nat × Nat))) (k : Nat),
      (((ps.enumFrom k).map
        (fun gp => groupDelta c rd gp.1 gp.2)).flatten).countP
          (Ev.isBuildOf2 cs co) =
        ps.countP (fun p => decide (p = some (cs, co))) := by
  intro ps
  induction ps with
  | nil => intro k; simp [List.enumFrom]
  | cons p rest ih =>
    intro k
    rw [show List.enumFrom k (p :: rest) = (k, p) :: rest.enumFrom (k + 1)
      from rfl]
    simp only [List.map_cons, List.flatten_cons, List.countP_append]
    rw [ih (k + 1), groupDelta_build_count c rd cs co hco hsplit k p,
      List.countP_cons]
    by_cases hp : p = some (cs, co)
    · simp [hp]
      omega
    · simp [hp]

theorem isBuildOf2_shape {cs co : Nat} {e : Ev}
    (h : Ev.isBuildOf2 cs co e = true) : ∃ g, e = Ev.buildCall g cs co := by
  cases e <;> simp [Ev.isBuildOf2] at h
  case buildCall g a b =>
    obtain ⟨rfl, rfl⟩ := h
    exact ⟨g, rfl⟩

/-- C2 amended: the index build runs exactly once per OCCURRENCE of a valid
pair `(cs, co)` in the expanded grid — hence once per distinct valid pair
exactly when the configured lists repeat no combination — and never for an
invalid pair. -/
theorem claim_C2_build_per_occurrence (env : Env) (fp : List String)
    (cfg : Config) (q : String) (pb sp : Bool)
    (hb : ∀ n, env.statusFail n = false)
    (hre : env.ollamaReachable = true) (hfp : fp ≠ [])
    (hok : ∀ f ∈ fp, isOkE (env.loadDoc f) = true)
    (hdocs : docsOf env fp ≠ [])
    (hsplit : ∀ cs co, co < cs →
      isOkE (env.splitDocs (docsOf env fp) cs co) = true) :
    ∃ out, run_batch_experiment env fp cfg q pb sp = .ok out ∧
      (∀ cs co, co < cs → out.trace.countP (Ev.isBuildOf2 cs co) =
        (gridProd cfg.chunk_sizes cfg.chunk_overlaps).countP
          (fun x => decide (x = (cs, co)))) ∧
      (∀ cs co, cs ≤ co → out.trace.countP (Ev.isBuildOf2 cs co) = 0) := by
  obtain ⟨out, hout, htr, _, _⟩ :=
    run_spec env fp cfg q pb sp hb hre hfp hok hdocs
  refine ⟨out, hout, ?_, ?_⟩
  · intro cs co hco
    rw [htr, List.countP_append]
    have hload0 : (fp.map Ev.load).countP (Ev.isBuildOf2 cs co) = 0 := by
      apply countP_zero_of_false
      intro e he
      obtain ⟨f, _, rfl⟩ := List.mem_map.mp he
      rfl
    rw [hload0, Nat.zero_add]
    rw [show (ingestionParams cfg true).enum =
      (ingestionParams cfg true).enumFrom 0 from rfl]
    rw [build_count_go (mkCtx env cfg q pb sp true) (docsOf env fp)
      cs co hco (hsplit cs co hco) (ingestionParams cfg true) 0]
    show ((gridProd cfg.chunk_sizes cfg.chunk_overlaps).map
        (some : Nat × Nat → Option (Nat × Nat))).countP _ = _
    rw [List.countP_map]
    apply List.countP_congr
    intro x _
    simp
  · intro cs co hinv
    rw [htr]
    apply countP_zero_of_false
    intro e he
    cases hv : Ev.isBuildOf2 cs co e
    · rfl
    · exfalso
      obtain ⟨g, rfl⟩ := isBuildOf2_shape hv
      rcases List.mem_append.mp he with h2 | h2
      · obtain ⟨f, _, hf⟩ := List.mem_map.mp h2
        exact absurd hf (by simp)
      · obtain ⟨l, hl, hel⟩ := List.mem_flatten.mp h2
        obtain ⟨gp, _, rfl⟩ := List.mem_map.mp hl
        have := @split_build_valid (mkCtx env cfg q pb sp true)
          (docsOf env fp) gp.1 gp.2 _ _ _ (.inr hel)
        omega

/-! ### The progress sink never influences the run (claim C5) -/

/-- Replace only the progress sink's failure pattern of an environment. -/
def setPF (env : Env) (pf : Nat → Bool) : Env := { env with progressFail := pf }

/-- The same context with the progress sink's failure pattern replaced. -/
def setPFc (c : Ctx) (pf : Nat → Bool) : Ctx :=
  { c with env := setPF c.env pf }

/-- Replace the delivered-reports list of a state. -/
def withReports (s : St) (r : List ℚ) : St := { s with reports := r }

@[simp] theorem withReports_results (s : St) (r : List ℚ) :
    (withReports s r).results = s.results := rfl

@[simp] theorem withReports_step (s : St) (r : List ℚ) :
    (withReports s r).current_step = s.current_step := rfl

@[simp] theorem withReports_trace (s : St) (r : List ℚ) :
    (withReports s r).trace = s.trace := rfl

@[simp] theorem withReports_nStatus (s : St) (r : List ℚ) :
    (withReports s r).nStatus = s.nStatus := rfl

@[simp] theorem withReports_nProgress (s : St) (r : List ℚ) :
    (withReports s r).nProgress = s.nProgress := rfl

@[simp] theorem withReports_reports (s : St) (r : List ℚ) :
    (withReports s r).reports = r := rfl

@[simp] theorem setPFc_sp (c : Ctx) (pf : Nat → Bool) :
    (setPFc c pf).sp = c.sp := rfl

@[simp] theorem setPFc_pb (c : Ctx) (pf : Nat → Bool) :
    (setPFc c pf).pb = c.pb := rfl

@[simp] theorem setPFc_cfg (c : Ctx) (pf : Nat → Bool) :
    (setPFc c pf).cfg = c.cfg := rfl

@[simp] theorem setPFc_question (c : Ctx) (pf : Nat → Bool) :
    (setPFc c pf).question = c.question := rfl

@[simp] theorem setPFc_hasFiles (c : Ctx) (pf : Nat → Bool) :
    (setPFc c pf).hasFiles = c.hasFiles := rfl

@[simp] theorem setPFc_statusFail (c : Ctx) (pf : Nat → Bool) (n : Nat) :
    (setPFc c pf).env.statusFail n = c.env.statusFail n := rfl

@[simp] theorem setPFc_setupFail (c : Ctx) (pf : Nat → Bool) (g i : Nat) :
    (setPFc c pf).env.setupFail g i = c.env.setupFail g i := rfl

@[simp] theorem setPFc_genOutcome (c : Ctx) (pf : Nat → Bool) (g i : Nat) :
    (setPFc c pf).env.genOutcome g i = c.env.genOutcome g i := rfl

@[simp] theorem setPFc_judgeOutcome (c : Ctx) (pf : Nat → Bool) (g i : Nat) :
    (setPFc c pf).env.judgeOutcome g i = c.env.judgeOutcome g i := rfl

@[simp] theorem setPFc_splitDocs (c : Ctx) (pf : Nat → Bool)
    (rd : List String) (cs co : Nat) :
    (setPFc c pf).env.splitDocs rd cs co = c.env.splitDocs rd cs co := rfl

@[simp] theorem setPFc_buildIndex (c : Ctx) (pf : Nat → Bool)
    (chunks : List String) :
    (setPFc c pf).env.buildIndex chunks = c.env.buildIndex chunks := rfl

@[simp] theorem setPFc_progressFail (c : Ctx) (pf : Nat → Bool) (n : Nat) :
    (setPFc c pf).env.progressFail n = pf n := rfl

theorem statusCall_pf (c : Ctx) (pf : Nat → Bool) (s : St) (r : List ℚ) :
    statusCall (setPFc c pf) (withReports s r) =
      (statusCall c s).map (fun t => withReports t r) := by
  by_cases hsp : c.sp
  · by_cases hfail : c.env.statusFail s.nStatus
    · simp [statusCall, setPFc, setPF, withReports, hsp, hfail, Except.map]
    · simp [statusCall, setPFc, setPF, withReports, hsp, hfail, Except.map]
  · simp [statusCall, setPFc, setPF, withReports, hsp, Except.map]

theorem statusCallCaught_pf (c : Ctx) (pf : Nat → Bool) (s : St)
    (r : List ℚ) :
    statusCallCaught (setPFc c pf) (withReports s r) =
      (withReports (statusCallCaught c s).1 r, (statusCallCaught c s).2) := by
  by_cases hsp : c.sp
  · simp [statusCallCaught, setPFc, setPF, withReports, hsp]
  · simp [statusCallCaught, setPFc, setPF, withReports, hsp]


theorem progressCall_pf (c : Ctx) (pf : Nat → Bool) (s : St) (r : List ℚ) :
    ∃ r2, progressCall (setPFc c pf) (withReports s r) =
      withReports (progressCall c s) r2 := by
  unfold progressCall
  simp only [setPFc_pb, setPFc_cfg, setPFc_hasFiles, setPFc_progressFail,
    withReports_nProgress, withReports_reports, withReports_step]
  by_cases hpb : c.pb
  · rw [if_pos hpb, if_pos hpb]
    by_cases hts : totalSteps c.cfg c.hasFiles = 0
    · rw [if_pos hts, if_pos hts]
      exact ⟨r, rfl⟩
    · rw [if_neg hts, if_neg hts]
      by_cases hpf2 : pf s.nProgress
      · refine ⟨r, ?_⟩
        simp [withReports, hpf2]
      · refine ⟨r ++
          [min ((s.current_step : ℚ) /
            (totalSteps c.cfg c.hasFiles : ℚ)) 1], ?_⟩
        simp [withReports, hpf2]
  · rw [if_neg hpb, if_neg hpb]
    exact ⟨r, rfl⟩

theorem phase1Step_pf (c : Ctx) (pf : Nat → Bool) (g i : Nat) (t : Task)
    (s : St) (r : List ℚ) (acc : List GenEntry) :
    phase1Step (setPFc c pf) g i t (withReports s r) acc =
      (withReports (phase1Step c g i t s acc).1 r,
        (phase1Step c g i t s acc).2) := by
  unfold phase1Step
  simp only [setPFc_setupFail, setPFc_genOutcome]
  cases hsf : c.env.setupFail g i with
  | some e => rfl
  | none =>
    dsimp only
    rw [show ({ withReports s r with
        trace := (withReports s r).trace ++ [Ev.genCall g i] } : St) =
        withReports { s with trace := s.trace ++ [Ev.genCall g i] } r
      from rfl]
    rw [statusCallCaught_pf]
    cases c.env.genOutcome g i <;>
      cases (statusCallCaught c
        { s with trace := s.trace ++ [Ev.genCall g i] }).2 <;> rfl

theorem phase1Go_pf (c : Ctx) (pf : Nat → Bool) (g : Nat) :
    ∀ (its : List (Nat × Task)) (s : St) (r : List ℚ)
      (acc : List GenEntry),
      phase1Go (setPFc c pf) g its (withReports s r) acc =
        (withReports (phase1Go c g its s acc).1 r,
          (phase1Go c g its s acc).2) := by
  intro its
  induction its with
  | nil => intro s r acc; rfl
  | cons it rest ih =>
    intro s r acc
    obtain ⟨i, t⟩ := it
    show phase1Go (setPFc c pf) g rest
        (phase1Step (setPFc c pf) g i t (withReports s r) acc).1
        (phase1Step (setPFc c pf) g i t (withReports s r) acc).2 = _
    rw [phase1Step_pf]
    exact ih (phase1Step c g i t s acc).1 r (phase1Step c g i t s acc).2

theorem phase2Tail_pf (c : Ctx) (pf : Nat → Bool) (x : St) (rr : List ℚ) :
    ∃ r2, progressCall (setPFc c pf)
        { (statusCallCaught (setPFc c pf) (withReports x rr)).1 with
          current_step :=
            (statusCallCaught (setPFc c pf)
              (withReports x rr)).1.current_step + 1 } =
      withReports (progressCall c
        { (statusCallCaught c x).1 with
          current_step := (statusCallCaught c x).1.current_step + 1 }) r2 := by
  rw [statusCallCaught_pf]
  show ∃ r2, progressCall (setPFc c pf)
      (withReports { (statusCallCaught c x).1 with
        current_step := (statusCallCaught c x).1.current_step + 1 } rr) =
    withReports (progressCall c { (statusCallCaught c x).1 with
      current_step := (statusCallCaught c x).1.current_step + 1 }) r2
  exact progressCall_pf c pf _ rr

theorem phase2Step_pf (c : Ctx) (pf : Nat → Bool) (g : Nat) (e : GenEntry)
    (s : St) (r : List ℚ) :
    ∃ r2, phase2Step (setPFc c pf) g e (withReports s r) =
      withReports (phase2Step c g e s) r2 := by
  unfold phase2Step
  by_cases hsucc : e.successful = false
  · rw [if_pos hsucc, if_pos hsucc]
    exact ⟨r, rfl⟩
  · rw [if_neg hsucc, if_neg hsucc]
    have hrw : (setPFc c pf).env.judgeOutcome g e.tIdx =
        c.env.judgeOutcome g e.tIdx := rfl
    rw [hrw]
    cases hj : c.env.judgeOutcome g e.tIdx with
    | ok jd =>
      exact phase2Tail_pf c pf
        { s with trace := s.trace ++ [Ev.judgeCall g e.tIdx],
                 results := s.results ++ [recordOf c g e jd] } r
    | error e2 =>
      exact phase2Tail_pf c pf
        { s with trace := s.trace ++ [Ev.judgeCall g e.tIdx] } r

theorem phase2Go_pf (c : Ctx) (pf : Nat → Bool) (g : Nat) :
    ∀ (entries : List GenEntry) (s : St) (r : List ℚ),
      ∃ r2, phase2Go (setPFc c pf) g entries (withReports s r) =
        withReports (phase2Go c g entries s) r2 := by
  intro entries
  induction entries with
  | nil => intro s r; exact ⟨r, rfl⟩
  | cons e rest ih =>
    intro s r
    obtain ⟨r1, hr1⟩ := phase2Step_pf c pf g e s r
    show ∃ r2, phase2Go (setPFc c pf) g rest
      (phase2Step (setPFc c pf) g e (withReports s r)) = _
    rw [hr1]
    exact ih (phase2Step c g e s) r1

theorem releaseGen_pf (c : Ctx) (pf : Nat → Bool) (g : Nat) (s : St)
    (r : List ℚ) :
    releaseGen (setPFc c pf) g (withReports s r) =
      (releaseGen c g s).map (fun t => withReports t r) := by
  unfold releaseGen
  show (if containsSub "Ollama" c.cfg.model_name then _ else _) = _
  split
  · rw [statusCall_pf]
    cases statusCall c s with
    | error e => rfl
    | ok t => rfl
  · rfl

theorem releaseJudge_pf (c : Ctx) (pf : Nat → Bool) (g : Nat) (s : St)
    (r : List ℚ) :
    releaseJudge (setPFc c pf) g (withReports s r) =
      (releaseJudge c g s).map (fun t => withReports t r) := by
  unfold releaseJudge
  show (if containsSub "Ollama" c.cfg.judge_model then _ else _) = _
  split
  · rw [statusCall_pf]
    cases statusCall c s with
    | error e => rfl
    | ok t => rfl
  · rfl

theorem runPhases_pf (c : Ctx) (pf : Nat → Bool) (g : Nat)
    (pair : Option (Nat × Nat)) (s : St) (r : List ℚ) :
    ∃ r2, runPhases (setPFc c pf) g pair (withReports s r) =
      (runPhases c g pair s).map (fun t => withReports t r2) := by
  unfold runPhases
  rw [statusCall_pf]
  cases hsc : statusCall c s with
  | error e => exact ⟨r, rfl⟩
  | ok s1 =>
    dsimp only [Except.map]
    rw [show groupTasks (setPFc c pf).cfg (setPFc c pf).hasFiles pair =
      groupTasks c.cfg c.hasFiles pair from rfl]
    rw [phase1Go_pf]
    rw [releaseGen_pf]
    cases hrg : releaseGen c g
        (phase1Go c g (groupTasks c.cfg c.hasFiles pair).enum s1 []).1 with
    | error e => exact ⟨r, rfl⟩
    | ok s3 =>
      dsimp only [Except.map]
      rw [statusCall_pf]
      cases hsc2 : statusCall c s3 with
      | error e => exact ⟨r, rfl⟩
      | ok s4 =>
        dsimp only [Except.map]
        obtain ⟨r2, hr2⟩ := phase2Go_pf c pf g
          (phase1Go c g (groupTasks c.cfg c.hasFiles pair).enum s1 []).2 s4 r
        rw [hr2, releaseJudge_pf]
        exact ⟨r2, rfl⟩

theorem runGroup_pf (c : Ctx) (pf : Nat → Bool) (rd : List String) (g : Nat)
    (pair : Option (Nat × Nat)) (s : St) (r : List ℚ) :
    ∃ r2, runGroup (setPFc c pf) rd g pair (withReports s r) =
      (runGroup c rd g pair s).map (fun t => withReports t r2) := by
  cases pair with
  | none =>
    obtain ⟨r2, hr2⟩ := runPhases_pf c pf g none s r
    exact ⟨r2, hr2⟩
  | some p =>
    obtain ⟨cs, co⟩ := p
    unfold runGroup
    dsimp only
    by_cases hv : cs ≤ co
    · rw [if_pos hv, if_pos hv]
      have h1 : ({ withReports s r with
          current_step := (withReports s r).current_step +
            quota (setPFc c pf).cfg (setPFc c pf).hasFiles } : St) =
          withReports { s with current_step :=
            s.current_step + quota c.cfg c.hasFiles } r := rfl
      rw [h1]
      obtain ⟨r2, hr2⟩ := progressCall_pf c pf
        { s with current_step := s.current_step + quota c.cfg c.hasFiles } r
      rw [hr2]
      exact ⟨r2, rfl⟩
    · rw [if_neg hv, if_neg hv]
      have hrw : (setPFc c pf).env.splitDocs rd cs co =
          c.env.splitDocs rd cs co := rfl
      rw [hrw]
      cases hsp : c.env.splitDocs rd cs co with
      | error e => exact ⟨r, rfl⟩
      | ok chunks =>
        dsimp only
        have hrw2 : (setPFc c pf).env.buildIndex chunks =
            c.env.buildIndex chunks := rfl
        rw [hrw2]
        cases hbv : c.env.buildIndex chunks with
        | error e => exact ⟨r, rfl⟩
        | ok u =>
          exact runPhases_pf c pf g (some (cs, co))
            { s with trace := (s.trace ++ [Ev.splitCall g cs co]) ++
                [Ev.buildCall g cs co] } r

theorem runGroupsGo_pf (c : Ctx) (pf : Nat → Bool) (rd : List String) :
    ∀ (l : List (Nat × Option (Nat × Nat))) (s : St) (r : List ℚ),
      ∃ r2, runGroupsGo (setPFc c pf) rd l (withReports s r) =
        (runGroupsGo c rd l s).map (fun t => withReports t r2) := by
  intro l
  induction l with
  | nil => intro s r; exact ⟨r, rfl⟩
  | cons gp rest ih =>
    intro s r
    obtain ⟨g, pair⟩ := gp
    obtain ⟨r1, hr1⟩ := runGroup_pf c pf rd g pair s r
    show ∃ r2,
        (match runGroup (setPFc c pf) rd g pair (withReports s r) with
          | Except.error e => Except.error e
          | Except.ok s1 => runGroupsGo (setPFc c pf) rd rest s1) =
        (match runGroup c rd g pair s with
          | Except.error e => Except.error e
          | Except.ok s1 => runGroupsGo c rd rest s1).map
          (fun t => withReports t r2)
    rw [hr1]
    cases hrg : runGroup c rd g pair s with
    | error e => exact ⟨r, rfl⟩
    | ok s1 => exact ih s1 r1

theorem loadAll_cons (env : Env) (f : String) (rest : List String) (s : St)
    (acc : List String) :
    loadAll env (f :: rest) s acc =
      match env.loadDoc f with
      | .error _ => ({ s with trace := s.trace ++ [Ev.load f] }, none)
      | .ok ds =>
        loadAll env rest { s with trace := s.trace ++ [Ev.load f] }
          (acc ++ ds) := rfl

theorem loadAll_pf (env : Env) (pf : Nat → Bool) :
    ∀ (fps : List String) (s : St) (r : List ℚ) (acc : List String),
      loadAll (setPF env pf) fps (withReports s r) acc =
        (withReports (loadAll env fps s acc).1 r,
          (loadAll env fps s acc).2) := by
  intro fps
  induction fps with
  | nil => intro s r acc; rfl
  | cons f rest ih =>
    intro s r acc
    rw [loadAll_cons, loadAll_cons]
    have hrw : (setPF env pf).loadDoc f = env.loadDoc f := rfl
    rw [hrw]
    cases hld : env.loadDoc f with
    | error e => rfl
    | ok ds =>
      exact ih { s with trace := s.trace ++ [Ev.load f] } r (acc ++ ds)

/-- C5 amended: failures of the progress-reporting sink are swallowed —
replacing the progress sink's failure pattern arbitrarily changes nothing
about a run except which progress fractions were delivered: the run raises
the same exception or returns the same result rows, the same trace and the
same step counter. -/
theorem claim_C5_progress_sink_invariance (env : Env) (pf : Nat → Bool)
    (fp : List String) (cfg : Config) (q : String) (pb sp : Bool) :
    ∃ reps, run_batch_experiment (setPF env pf) fp cfg q pb sp =
      (run_batch_experiment env fp cfg q pb sp).map
        (fun out => { out with reports := reps }) := by
  unfold run_batch_experiment
  dsimp only
  have hrw0 : (setPF env pf).ollamaReachable = env.ollamaReachable := rfl
  rw [hrw0]
  by_cases holl : ((containsSub "Ollama" cfg.model_name ||
      containsSub "Ollama" cfg.judge_model) && !env.ollamaReachable) = true
  · rw [if_pos holl, if_pos holl]
    exact ⟨[], rfl⟩
  · rw [if_neg holl, if_neg holl]
    by_cases hhf : (!fp.isEmpty) = true
    · rw [if_pos hhf, if_pos hhf]
      rw [show loadAll (setPF env pf) fp ({} : St) [] =
        loadAll (setPF env pf) fp (withReports ({} : St) []) [] from rfl]
      rw [loadAll_pf]
      rcases hload : loadAll env fp ({} : St) [] with ⟨s1, odocs⟩
      cases odocs with
      | none => exact ⟨[], rfl⟩
      | some rawDocs =>
        dsimp only
        by_cases hde : rawDocs.isEmpty = true
        · rw [if_pos hde, if_pos hde]
          exact ⟨[], rfl⟩
        · rw [if_neg hde, if_neg hde]
          obtain ⟨r2, hr2⟩ := runGroupsGo_pf
            (⟨env, cfg, q, pb, sp, !fp.isEmpty⟩ : Ctx) pf rawDocs
            (ingestionParams cfg (!fp.isEmpty)).enum s1 []
          rw [show runGroupsGo
              (⟨setPF env pf, cfg, q, pb, sp, !fp.isEmpty⟩ : Ctx) rawDocs
              (ingestionParams cfg (!fp.isEmpty)).enum (withReports s1 []) =
            runGroupsGo (setPFc (⟨env, cfg, q, pb, sp, !fp.isEmpty⟩ : Ctx) pf)
              rawDocs (ingestionParams cfg (!fp.isEmpty)).enum
              (withReports s1 []) from rfl]
          rw [hr2]
          cases hgo : runGroupsGo (⟨env, cfg, q, pb, sp, !fp.isEmpty⟩ : Ctx)
              rawDocs (ingestionParams cfg (!fp.isEmpty)).enum s1 with
          | error e => exact ⟨[], rfl⟩
          | ok s2 => exact ⟨r2, rfl⟩
    · rw [if_neg hhf, if_neg hhf]
      obtain ⟨r2, hr2⟩ := runGroupsGo_pf
        (⟨env, cfg, q, pb, sp, !fp.isEmpty⟩ : Ctx) pf []
        (ingestionParams cfg (!fp.isEmpty)).enum ({} : St) []
      rw [show runGroupsGo
          (⟨setPF env pf, cfg, q, pb, sp, !fp.isEmpty⟩ : Ctx) []
          (ingestionParams cfg (!fp.isEmpty)).enum ({} : St) =
        runGroupsGo (setPFc (⟨env, cfg, q, pb, sp, !fp.isEmpty⟩ : Ctx) pf) []
          (ingestionParams cfg (!fp.isEmpty)).enum
          (withReports ({} : St) []) from rfl]
      rw [hr2]
      cases hgo : runGroupsGo (⟨env, cfg, q, pb, sp, !fp.isEmpty⟩ : Ctx) []
          (ingestionParams cfg (!fp.isEmpty)).enum ({} : St) with
      | error e => exact ⟨[], rfl⟩
      | ok s2 => exact ⟨r2, rfl⟩

/-! ### The final progress report (for the amended C1) -/

theorem progressCall_benign_reports (c : Ctx) (hpb : c.pb = true)
    (hts : totalSteps c.cfg c.hasFiles ≠ 0)
    (hpf : ∀ n, c.env.progressFail n = false) (s : St) :
    (progressCall c s).reports = s.reports ++
      [min ((s.current_step : ℚ) / (totalSteps c.cfg c.hasFiles : ℚ)) 1] := by
  unfold progressCall
  simp [hpb, hts, hpf]

theorem phase2Step_benign_last (c : Ctx) (g : Nat)
    (hb : ∀ n, c.env.statusFail n = false) (hpb : c.pb = true)
    (hts : totalSteps c.cfg c.hasFiles ≠ 0)
    (hpf : ∀ n, c.env.progressFail n = false)
    (e : GenEntry) (hsucc : e.successful = true) (s : St) :
    (phase2Step c g e s).current_step = s.current_step + 1 ∧
    (phase2Step c g e s).reports = s.reports ++
      [min (((s.current_step + 1 : Nat) : ℚ) /
        (totalSteps c.cfg c.hasFiles : ℚ)) 1] := by
  unfold phase2Step
  rw [if_neg (by simp [hsucc])]
  cases hj : c.env.judgeOutcome g e.tIdx with
  | ok jd =>
    dsimp only
    rw [statusCallCaught_benign c hb]
    constructor
    · simp
    · rw [progressCall_benign_reports c hpb hts hpf]
      simp
  | error e2 =>
    dsimp only
    rw [statusCallCaught_benign c hb]
    constructor
    · simp
    · rw [progressCall_benign_reports c hpb hts hpf]
      simp

theorem phase2Go_benign_last (c : Ctx) (g : Nat)
    (hb : ∀ n, c.env.statusFail n = false) (hpb : c.pb = true)
    (hts : totalSteps c.cfg c.hasFiles ≠ 0)
    (hpf : ∀ n, c.env.progressFail n = false) :
    ∀ (entries : List GenEntry) (s : St),
      (∀ e ∈ entries, e.successful = true) → entries ≠ [] →
      (phase2Go c g entries s).reports.getLast? =
        some (min (((s.current_step + entries.length : Nat) : ℚ) /
          (totalSteps c.cfg c.hasFiles : ℚ)) 1) := by
  intro entries
  induction entries with
  | nil => intro s _ hne; exact absurd rfl hne
  | cons e rest ih =>
    intro s hsucc _
    have hstep := phase2Step_benign_last c g hb hpb hts hpf e
      (hsucc e (by simp)) s
    cases rest with
    | nil =>
      show (phase2Go c g [] (phase2Step c g e s)).reports.getLast? = _
      simp only [phase2Go]
      rw [hstep.2]
      simp
    | cons e2 rest2 =>
      show (phase2Go c g (e2 :: rest2) (phase2Step c g e s)).reports.getLast?
        = _
      rw [ih (phase2Step c g e s)
        (fun x hx => hsucc x (by simp [hx])) (by simp)]
      rw [hstep.1]
      norm_num [add_assoc, add_comm]

theorem runPhases_benign_last (c : Ctx) (g : Nat)
    (hb : ∀ n, c.env.statusFail n = false) (hpb : c.pb = true)
    (hts : totalSteps c.cfg c.hasFiles ≠ 0)
    (hpf : ∀ n, c.env.progressFail n = false)
    (hgen : ∀ g2 i, c.env.setupFail g2 i = none)
    (hgeno : ∀ g2 i, isOkE (c.env.genOutcome g2 i) = true)
    (pair : Option (Nat × Nat)) (s : St) :
    ∃ s2, runPhases c g pair s = .ok s2 ∧
      s2.current_step = s.current_step + quota c.cfg c.hasFiles ∧
      s2.reports.getLast? =
        some (min (((s.current_step + quota c.cfg c.hasFiles : Nat) : ℚ) /
          (totalSteps c.cfg c.hasFiles : ℚ)) 1) := by
  have hq : quota c.cfg c.hasFiles ≠ 0 := by
    intro h0
    apply hts
    unfold totalSteps
    unfold quota at h0
    rw [mul_assoc, h0, mul_zero]
  unfold runPhases
  rw [statusCall_benign c hb]
  have h1 := phase1Go_spec c g hb (groupTasks c.cfg c.hasFiles pair).enum
    (stBump c s) []
  obtain ⟨sg, hsg, hgr, hgs, hgt, hgrep⟩ :=
    releaseGen_benign c g hb (phase1Go c g
      (groupTasks c.cfg c.hasFiles pair).enum (stBump c s) []).1
  simp only [hsg]
  rw [statusCall_benign c hb]
  have hEsucc : ∀ e ∈ (phase1Go c g
      (groupTasks c.cfg c.hasFiles pair).enum (stBump c s) []).2,
      e.successful = true := by
    intro e he
    rw [h1.2.2] at he
    simp only [List.nil_append] at he
    obtain ⟨it, _, rfl⟩ := List.mem_map.mp he
    rw [entryOf_successful]
    simp [genOk, hgen, hgeno]
  have hElen : (phase1Go c g
      (groupTasks c.cfg c.hasFiles pair).enum (stBump c s) []).2.length =
      quota c.cfg c.hasFiles := by
    rw [h1.2.2]
    simp [List.enum_length, groupTasks_length]
  have hEne : (phase1Go c g
      (groupTasks c.cfg c.hasFiles pair).enum (stBump c s) []).2 ≠ [] := by
    intro h0
    rw [h0] at hElen
    exact hq hElen.symm
  have h2step := (phase2Go_spec c g hb (phase1Go c g
    (groupTasks c.cfg c.hasFiles pair).enum (stBump c s) []).2
    (stBump c sg)).2.1
  have h2last := phase2Go_benign_last c g hb hpb hts hpf (phase1Go c g
    (groupTasks c.cfg c.hasFiles pair).enum (stBump c s) []).2
    (stBump c sg) hEsucc hEne
  obtain ⟨sj, hsj, hjr, hjs, hjt, hjrep⟩ :=
    releaseJudge_benign c g hb (phase2Go c g (phase1Go c g
      (groupTasks c.cfg c.hasFiles pair).enum (stBump c s) []).2
      (stBump c sg))
  simp only [hsj]
  refine ⟨sj, rfl, ?_, ?_⟩
  · rw [hjs, h2step, hElen]
    simp only [stBump_step]
    rw [hgs, h1.1.2.1]
    simp
  · rw [hjrep, h2last, hElen]
    simp only [stBump_step]
    rw [hgs, h1.1.2.1]
    simp

theorem runGroup_benign_last (c : Ctx) (rd : List String)
    (hb : ∀ n, c.env.statusFail n = false) (hpb : c.pb = true)
    (hts : totalSteps c.cfg c.hasFiles ≠ 0)
    (hpf : ∀ n, c.env.progressFail n = false)
    (hgen : ∀ g2 i, c.env.setupFail g2 i = none)
    (hgeno : ∀ g2 i, isOkE (c.env.genOutcome g2 i) = true)
    (hsplit : ∀ cs co, isOkE (c.env.splitDocs rd cs co) = true)
    (hbuild : ∀ ch, isOkE (c.env.buildIndex ch) = true)
    (g : Nat) (pair : Option (Nat × Nat)) (s : St) :
    ∃ s2, runGroup c rd g pair s = .ok s2 ∧
      s2.current_step = s.current_step + quota c.cfg c.hasFiles ∧
      s2.reports.getLast? =
        some (min (((s.current_step + quota c.cfg c.hasFiles : Nat) : ℚ) /
          (totalSteps c.cfg c.hasFiles : ℚ)) 1) := by
  cases pair with
  | none => exact runPhases_benign_last c g hb hpb hts hpf hgen hgeno none s
  | some p =>
    obtain ⟨cs, co⟩ := p
    unfold runGroup
    by_cases hvalid : cs ≤ co
    · simp only [if_pos hvalid]
      refine ⟨_, rfl, by simp, ?_⟩
      rw [progressCall_benign_reports c hpb hts hpf]
      simp
    · simp only [if_neg hvalid]
      cases hsp : c.env.splitDocs rd cs co with
      | error e2 =>
        have := hsplit cs co
        rw [hsp] at this
        simp [isOkE] at this
      | ok chunks =>
        dsimp only
        cases hbv : c.env.buildIndex chunks with
        | error e2 =>
          have := hbuild chunks
          rw [hbv] at this
          simp [isOkE] at this
        | ok u =>
          obtain ⟨s2, hs2, hstep, hlast⟩ :=
            runPhases_benign_last c g hb hpb hts hpf hgen hgeno
              (some (cs, co))
              { s with trace := (s.trace ++ [Ev.splitCall g cs co]) ++
                  [Ev.buildCall g cs co] }
          exact ⟨s2, hs2, hstep, hlast⟩

theorem runGroupsGo_benign_last (c : Ctx) (rd : List String)
    (hb : ∀ n, c.env.statusFail n = false) (hpb : c.pb = true)
    (hts : totalSteps c.cfg c.hasFiles ≠ 0)
    (hpf : ∀ n, c.env.progressFail n = false)
    (hgen : ∀ g2 i, c.env.setupFail g2 i = none)
    (hgeno : ∀ g2 i, isOkE (c.env.genOutcome g2 i) = true)
    (hsplit : ∀ cs co, isOkE (c.env.splitDocs rd cs co) = true)
    (hbuild : ∀ ch, isOkE (c.env.buildIndex ch) = true) :
    ∀ (l : List (Nat × Option (Nat × Nat))) (s : St), l ≠ [] →
      ∃ s2, runGroupsGo c rd l s = .ok s2 ∧
        s2.current_step =
          s.current_step + l.length * quota c.cfg c.hasFiles ∧
        s2.reports.getLast? =
          some (min (((s.current_step +
              l.length * quota c.cfg c.hasFiles : Nat) : ℚ) /
            (totalSteps c.cfg c.hasFiles : ℚ)) 1) := by
  intro l
  induction l with
  | nil => intro s hne; exact absurd rfl hne
  | cons gp rest ih =>
    intro s _
    obtain ⟨g, pair⟩ := gp
    obtain ⟨s1, hs1, hstep1, hlast1⟩ :=
      runGroup_benign_last c rd hb hpb hts hpf hgen hgeno hsplit hbuild
        g pair s
    cases rest with
    | nil =>
      refine ⟨s1, ?_, ?_, ?_⟩
      · simp only [runGroupsGo, hs1]
      · rw [hstep1]; simp
      · rw [hlast1]; norm_num
    | cons gp2 rest2 =>
      obtain ⟨s2, hs2, hstep2, hlast2⟩ := ih s1 (by simp)
      refine ⟨s2, ?_, ?_, ?_⟩
      · simp only [runGroupsGo, hs1]
        exact hs2
      · rw [hstep2, hstep1]
        simp [List.length_cons]
        ring
      · rw [hlast2, hstep1]
        have harith : s.current_step + quota c.cfg c.hasFiles +
            (gp2 :: rest2).length * quota c.cfg c.hasFiles =
            s.current_step +
              ((gp2 :: rest2).length + 1) * quota c.cfg c.hasFiles := by
          ring
        rw [harith]
        norm_num [List.length_cons]

/-- C1 corrected: the code's `total_steps` (line 139) counts EVERY expanded
ingestion pair — invalid (overlap ≥ size) pairs included — times
|k_retrievals| × |temperatures| × |top_ps|; and in a run with the progress
bar present, a reachable server, every load, split, build and generation
succeeding, the sinks never raising and a nonzero step total, the run
completes with its step counter equal to `total_steps` and the last reported
progress fraction exactly 1. -/
theorem claim_C1_total_and_final_progress (env : Env) (fp : List String)
    (cfg : Config) (q : String) (sp : Bool)
    (hb : ∀ n, env.statusFail n = false)
    (hpf : ∀ n, env.progressFail n = false)
    (hre : env.ollamaReachable = true)
    (hfp : fp ≠ [])
    (hok : ∀ f ∈ fp, isOkE (env.loadDoc f) = true)
    (hdocs : docsOf env fp ≠ [])
    (hgen : ∀ g i, env.setupFail g i = none)
    (hgeno : ∀ g i, isOkE (env.genOutcome g i) = true)
    (hsplit : ∀ rd cs co, isOkE (env.splitDocs rd cs co) = true)
    (hbuild : ∀ ch, isOkE (env.buildIndex ch) = true)
    (hts : totalSteps cfg true ≠ 0) :
    ∃ out, run_batch_experiment env fp cfg q true sp = .ok out ∧
      totalSteps cfg true =
        (ingestionParams cfg true).length * quota cfg true ∧
      out.current_step = totalSteps cfg true ∧
      out.reports.getLast? = some 1 := by
  have hhf : fp.isEmpty = false := by
    cases fp with
    | nil => exact absurd rfl hfp
    | cons a l => rfl
  unfold run_batch_experiment
  simp only [hhf, hre, Bool.not_true, Bool.and_false, Bool.not_false,
    if_false, Bool.false_eq_true, if_true]
  rw [loadAll_ok env fp hok ({} : St) []]
  have hde : (docsOf env fp).isEmpty = false := by
    cases hcd : docsOf env fp with
    | nil => exact absurd hcd hdocs
    | cons a l => rfl
  simp only [List.nil_append, hde, Bool.false_eq_true, if_false]
  have hlne : (ingestionParams cfg true).enum ≠ [] := by
    intro h0
    apply hts
    have hlen : (ingestionParams cfg true).length = 0 := by
      have := congrArg List.length h0
      simpa [List.enum_length] using this
    unfold totalSteps
    rw [show (ingestionParams cfg true).length *
        (retrievalParams cfg true).length = 0 from by rw [hlen, zero_mul],
      zero_mul]
  obtain ⟨s2, hs2, hstep, hlast⟩ :=
    runGroupsGo_benign_last (⟨env, cfg, q, true, sp, true⟩ : Ctx)
      (docsOf env fp) hb rfl hts hpf hgen hgeno
      (fun cs co => hsplit (docsOf env fp) cs co) hbuild
      (ingestionParams cfg true).enum { trace := fp.map Ev.load } hlne
  rw [hs2]
  have htot : (ingestionParams cfg true).length * quota cfg true =
      totalSteps cfg true := by
    unfold totalSteps quota
    rw [mul_assoc]
  refine ⟨finishSt s2 s2.results, rfl, htot.symm, ?_, ?_⟩
  · show s2.current_step = _
    rw [hstep]
    simp only [List.enum_length]
    show 0 + _ = _
    rw [Nat.zero_add, htot]
  · show s2.reports.getLast? = _
    rw [hlast]
    have h1 : ({ trace := fp.map Ev.load } : St).current_step +
        (ingestionParams cfg true).enum.length * quota cfg true =
        totalSteps cfg true := by
      simp only [List.enum_length]
      show 0 + _ = _
      rw [Nat.zero_add, htot]
    rw [h1]
    rw [div_self (by exact_mod_cast hts)]
    norm_num

/-! ### Properties of the retry machinery -/

theorem retryGo_fst_ge (mn mx : ℚ) (maxA : Nat) (call : Nat → Except PyErr α) :
    ∀ (fuel attempt : Nat), attempt ≤ (retryGo mn mx maxA call attempt fuel).1 := by
  intro fuel
  induction fuel with
  | zero => intro attempt; simp [retryGo]
  | succ f ih =>
    intro attempt
    simp only [retryGo]
    split
    · simp
    · split
      · exact le_trans (Nat.le_succ attempt) (ih (attempt + 1))
      · simp

theorem retryGo_fst_le (mn mx : ℚ) (maxA : Nat) (call : Nat → Except PyErr α) :
    ∀ (fuel attempt : Nat), attempt ≤ maxA →
      (retryGo mn mx maxA call attempt fuel).1 ≤ maxA := by
  intro fuel
  induction fuel with
  | zero => intro attempt h; simpa [retryGo] using h
  | succ f ih =>
    intro attempt h
    simp only [retryGo]
    split
    · simpa using h
    · rename_i e heq
      split
      · rename_i hc
        simp only [Bool.and_eq_true, decide_eq_true_eq] at hc
        exact ih (attempt + 1) hc.2
      · simpa using h

theorem retryGo_transient_before (mn mx : ℚ) (maxA : Nat)
    (call : Nat → Except PyErr α) :
    ∀ (fuel attempt k : Nat), attempt ≤ k →
      k < (retryGo mn mx maxA call attempt fuel).1 →
      ∃ e, call k = .error e ∧ e.isTransient = true := by
  intro fuel
  induction fuel with
  | zero =>
    intro attempt k h1 h2
    simp [retryGo] at h2
    omega
  | succ f ih =>
    intro attempt k h1 h2
    simp only [retryGo] at h2
    revert h2
    split
    · intro h2; simp at h2; omega
    · rename_i e heq
      split
      · rename_i hc
        simp only [Bool.and_eq_true, decide_eq_true_eq] at hc
        intro h2
        rcases Nat.eq_or_lt_of_le h1 with h | h
        · exact ⟨e, by simpa [← h] using heq, hc.1⟩
        · exact ih (attempt + 1) k h h2
      · intro h2; simp at h2; omega

theorem retryGo_waits (mn mx : ℚ) (maxA : Nat) (call : Nat → Except PyErr α) :
    ∀ (fuel attempt : Nat),
      (retryGo mn mx maxA call attempt fuel).2.1 =
        (List.range ((retryGo mn mx maxA call attempt fuel).1 - attempt)).map
          (fun j => waitExp mn mx (attempt + j)) := by
  intro fuel
  induction fuel with
  | zero => intro attempt; simp [retryGo]
  | succ f ih =>
    intro attempt
    simp only [retryGo]
    split
    · simp
    · split
      · have hge := retryGo_fst_ge mn mx maxA call f (attempt + 1)
        obtain ⟨n, hn⟩ : ∃ n, (retryGo mn mx maxA call (attempt + 1) f).1 =
            attempt + 1 + n := ⟨_, (Nat.add_sub_cancel' hge).symm⟩
        simp only [ih (attempt + 1), hn]
        have h1 : attempt + 1 + n - attempt = n + 1 := by omega
        have h2 : attempt + 1 + n - (attempt + 1) = n := by omega
        rw [h1, h2, List.range_succ_eq_map]
        simp only [List.map_cons, List.map_map, Function.comp_apply, Nat.add_zero]
        congr 1
        apply List.map_congr_left
        intro j _
        congr 1
        omega
      · simp

theorem retryGo_error_call (mn mx : ℚ) (maxA : Nat) (call : Nat → Except PyErr α) :
    ∀ (fuel attempt : Nat) (e : PyErr),
      (retryGo mn mx maxA call attempt fuel).2.2 = .error e →
      call (retryGo mn mx maxA call attempt fuel).1 = .error e := by
  intro fuel
  induction fuel with
  | zero => intro attempt e h; simp_all [retryGo]
  | succ f ih =>
    intro attempt e h
    simp only [retryGo] at h ⊢
    revert h
    split
    · intro h; simp_all
    · rename_i e0 heq
      split
      · intro h; exact ih (attempt + 1) e h
      · intro h; simp at h; simp [heq, h]

theorem retryGo_exhaust (mn mx : ℚ) (maxA : Nat) (call : Nat → Except PyErr α) :
    ∀ (fuel attempt : Nat) (e : PyErr), attempt ≤ maxA → maxA ≤ attempt + fuel →
      (retryGo mn mx maxA call attempt fuel).2.2 = .error e →
      e.isTransient = true →
      (retryGo mn mx maxA call attempt fuel).1 = maxA := by
  intro fuel
  induction fuel with
  | zero =>
    intro attempt e h1 h2 h3 h4
    simp [retryGo] at h3 ⊢
    omega
  | succ f ih =>
    intro attempt e h1 h2 h3 h4
    simp only [retryGo] at h3 ⊢
    revert h3
    split
    · intro h3; simp at h3
    · rename_i e0 heq
      split
      · intro h3; exact ih (attempt + 1) e (by
          rename_i hc
          simp only [Bool.and_eq_true, decide_eq_true_eq] at hc
          omega) (by omega) h3 h4
      · rename_i hc
        intro h3
        simp at h3
        subst h3
        simp only [Bool.and_eq_true, decide_eq_true_eq, not_and] at hc
        simp [h4] at hc
        omega

theorem waitExp_bounds (mn mx : ℚ) (k : Nat) (h0 : 0 ≤ mn) (h1 : mn ≤ mx) :
    mn ≤ waitExp mn mx k ∧ waitExp mn mx k ≤ mx := by
  unfold waitExp
  constructor
  · exact le_trans (le_max_right 0 mn) (le_max_left _ _)
  · apply max_le
    · exact max_le (le_trans h0 h1) h1
    · exact min_le_right _ _

/-- C3: with `enable_retry` on, the tenacity wrapper built by `create_retryer`
(a) makes at most `max_attempts` attempts, (b) retries only after transient
errors, (c) waits the clamped exponential `max(max(0, wait_min),
min(2·2^(n−1), wait_max))` after the n-th attempt, each wait within
`[wait_min, wait_max]`, (d) on exhaustion re-raises the last attempt's own
error, exhausting exactly `max_attempts` attempts, (e) with `max_attempts=3`
a call failing twice transiently then succeeding is attempted exactly 3 times
and succeeds, and (f) a call failing non-transiently is attempted exactly
once with its error re-raised immediately. -/
theorem claim_C3_retry_wrapper (pd : PolicyDict) (r : RetryerCfg)
    (hcr : create_retryer pd = some r) (h0 : 0 ≤ r.wait_min)
    (h1 : r.wait_min ≤ r.wait_max) (hma : 1 ≤ r.max_attempts) :
    (∀ (α : Type) (call : Nat → Except PyErr α),
      (runRetry r call).1 ≤ r.max_attempts ∧
      (∀ k, 1 ≤ k → k < (runRetry r call).1 →
        ∃ e, call k = .error e ∧ e.isTransient = true) ∧
      ((runRetry r call).2.1 =
        (List.range ((runRetry r call).1 - 1)).map
          (fun j => waitExp r.wait_min r.wait_max (1 + j))) ∧
      (∀ w ∈ (runRetry r call).2.1, r.wait_min ≤ w ∧ w ≤ r.wait_max) ∧
      (∀ e, (runRetry r call).2.2 = .error e →
        call (runRetry r call).1 = .error e) ∧
      (∀ e, (runRetry r call).2.2 = .error e → e.isTransient = true →
        (runRetry r call).1 = r.max_attempts)) ∧
    (r.max_attempts = 3 →
      ∀ (α : Type) (call : Nat → Except PyErr α) (e1 e2 : PyErr) (v : α),
        call 1 = .error e1 → e1.isTransient = true →
        call 2 = .error e2 → e2.isTransient = true → call 3 = .ok v →
        runRetry r call =
          (3, [waitExp r.wait_min r.wait_max 1, waitExp r.wait_min r.wait_max 2],
            .ok v)) ∧
    (∀ (α : Type) (call : Nat → Except PyErr α) (e : PyErr),
      call 1 = .error e → e.isTransient = false →
      runRetry r call = (1, [], .error e)) := by
  refine ⟨fun α call => ⟨?_, ?_, ?_, ?_, ?_, ?_⟩, ?_, ?_⟩
  · exact retryGo_fst_le _ _ _ _ _ 1 hma
  · exact fun k hk => retryGo_transient_before _ _ _ _ _ 1 k hk
  · exact retryGo_waits _ _ _ _ _ 1
  · intro w hw
    unfold runRetry at hw
    rw [retryGo_waits _ _ _ _ _ 1] at hw
    simp only [List.mem_map, List.mem_range] at hw
    obtain ⟨j, _, rfl⟩ := hw
    exact waitExp_bounds _ _ _ h0 h1
  · exact fun e => retryGo_error_call _ _ _ _ _ 1 e
  · exact fun e he ht => retryGo_exhaust _ _ _ _ _ 1 e hma (by omega) he ht
  · intro hm3 α call e1 e2 v hc1 ht1 hc2 ht2 hc3
    unfold runRetry
    rw [hm3]
    simp [retryGo, hc1, hc2, hc3, ht1, ht2]
  · intro α call e hc1 ht
    unfold runRetry
    obtain ⟨f, hf⟩ : ∃ f, r.max_attempts = f + 1 :=
      ⟨r.max_attempts - 1, by omega⟩
    rw [hf]
    simp [retryGo, hc1, ht]

/-- A concrete retry-enabled policy record. -/
def pdW : PolicyDict :=
  { enable_retry := some true, wait_min := some 4, wait_max := some 60,
    max_attempts := some 3 }

/-- A call that fails transiently twice, then succeeds. -/
def chainTwoFail : Nat → Except PyErr Nat := fun n =>
  if n ≤ 2 then .error (.rateLimit "429") else .ok 7

/-- A call that fails with a non-transient error. -/
def chainHardFail : Nat → Except PyErr Nat := fun _ => .error (.other "boom")

/-- Witness for C3 at the concrete policy `pdW` and two concrete calls. -/
theorem claim_C3_retry_wrapper_witness :
    runRetry ⟨4, 60, 3⟩ chainTwoFail = (3, [4, 4], .ok 7) ∧
    runRetry ⟨4, 60, 3⟩ chainHardFail = (1, [], .error (.other "boom")) := by
  have h := claim_C3_retry_wrapper pdW ⟨4, 60, 3⟩ (by decide) (by decide)
    (by decide) (by decide)
  constructor
  · have h2 := h.2.1 rfl Nat chainTwoFail (.rateLimit "429") (.rateLimit "429") 7
      (by decide) (by decide) (by decide) (by decide) (by decide)
    rw [h2]
    norm_num [waitExp]
  · exact h.2.2 Nat chainHardFail (.other "boom") (by decide) (by decide)

/-- C8: the retry-policy resolver.  The policy table (`model_config.json`) is
not part of the source snapshot; per the spec (§6) it holds one record per
provider family and a `default` record whose retries are disabled — taken
here as hypotheses on the table parameter.  An identifier matching none of
the ordered provider families resolves to the default record (retries
disabled, so no retryer is built); a matching identifier resolves to the
matched provider's own record. -/
theorem claim_C8_resolver (table : String → Option PolicyDict)
    (d : PolicyDict) (hd : table "default" = some d)
    (hdis : d.enable_retry = some false) (m : String) :
    (providerFamilies.find? (fun p => containsSub p m) = none →
      get_retry_config table m = d ∧
      (get_retry_config table m).enable_retry.getD false = false ∧
      create_retryer (get_retry_config table m) = none) ∧
    (∀ p rec, providerFamilies.find? (fun p => containsSub p m) = some p →
      table p = some rec → get_retry_config table m = rec) := by
  constructor
  · intro h
    unfold get_retry_config
    rw [h, hd]
    simp [hdis, create_retryer]
  · intro p rec h hp
    unfold get_retry_config
    rw [h]
    simp [hp]

/-- A concrete policy table: a `Groq` record with retries on, a `default`
record with retries off. -/
def tblW : String → Option PolicyDict := fun k =>
  if k = "Groq" then some pdW
  else if k = "default" then some noRetryDict else none

/-- Witness for C8 at a concrete table, one unmatched and one matched
identifier. -/
theorem claim_C8_resolver_witness :
    get_retry_config tblW "mystery-model" = noRetryDict ∧
    get_retry_config tblW "Groq (llama3-70b)" = pdW := by
  have h1 := claim_C8_resolver tblW noRetryDict (by decide) (by decide)
    "mystery-model"
  have h2 := claim_C8_resolver tblW noRetryDict (by decide) (by decide)
    "Groq (llama3-70b)"
  exact ⟨(h1.1 (by decide)).1, h2.2 "Groq" pdW (by decide) (by decide)⟩

/-- C10: `_run_generation` and `_run_judging` never propagate an exception of
the wrapped chain call: each always returns a dict that on failure has
`successful = false` with `error` the raised exception's message, and on
success has `successful = true` with the answer/context/latency
(resp. score/latency) fields. -/
theorem claim_C10_helpers_total (table : String → Option PolicyDict)
    (m jm : String) (gc : Nat → Except PyErr GenResp)
    (jc : Nat → Except PyErr Score) (t1 t2 : ℚ) :
    ((∃ e, guardedCall table m gc = .error e ∧
        run_generation table m gc t1 =
          { successful := false, error := some e.msg }) ∨
      (∃ resp, guardedCall table m gc = .ok resp ∧
        run_generation table m gc t1 =
          { successful := true, answer := some resp.answer,
            context := some (String.intercalate "\n\n" resp.context),
            latency_rag := some t1 })) ∧
    ((∃ e, guardedCall table jm jc = .error e ∧
        run_judging table jm jc t2 =
          { successful := false, error := some e.msg }) ∨
      (∃ sc, guardedCall table jm jc = .ok sc ∧
        run_judging table jm jc t2 =
          { successful := true, score := some sc,
            latency_judge := some t2 })) := by
  constructor
  · cases h : guardedCall table m gc with
    | error e =>
      exact .inl ⟨e, rfl, by simp [run_generation, run_generation_body, h]⟩
    | ok resp =>
      exact .inr ⟨resp, rfl, by simp [run_generation, run_generation_body, h]⟩
  · cases h : guardedCall table jm jc with
    | error e =>
      exact .inl ⟨e, rfl, by simp [run_judging, run_judging_body, h]⟩
    | ok sc =>
      exact .inr ⟨sc, rfl, by simp [run_judging, run_judging_body, h]⟩

/-! ### Concrete environments and configurations for counterexamples and
witnesses -/

/-- A fully benign collaborator environment. -/
def envB : Env :=
  { ollamaReachable := true
    loadDoc := fun _ => .ok ["doc"]
    splitDocs := fun _ _ _ => .ok ["chunk"]
    buildIndex := fun _ => .ok ()
    setupFail := fun _ _ => none
    genOutcome := fun _ _ => .ok ⟨"A", "ctx", 1⟩
    judgeOutcome := fun _ _ => .ok ⟨{ accuracy := some 10 }, 2⟩
    statusFail := fun _ => false
    progressFail := fun _ => false }

/-- One valid pair (10,5) and one invalid pair (10,20) in the grid. -/
def cfgMix : Config :=
  { model_name := "M", judge_model := "J"
    chunk_sizes := [10], chunk_overlaps := [5, 20]
    k_retrievals := [1], temperatures := [1], top_ps := [1] }

/-- A duplicated chunk size: the distinct valid pair (100,10) occurs twice in
the expanded grid. -/
def cfgDup : Config :=
  { model_name := "M", judge_model := "J"
    chunk_sizes := [100, 100], chunk_overlaps := [10]
    k_retrievals := [1], temperatures := [1], top_ps := [1] }

/-- A single valid pair. -/
def cfgValid : Config :=
  { model_name := "M", judge_model := "J"
    chunk_sizes := [10], chunk_overlaps := [5]
    k_retrievals := [1], temperatures := [1], top_ps := [1] }

/-- The step total claim C1 asserts: the sum over VALID ingestion pairs only
of |k_retrievals| · |temperatures| · |top_ps|.  Stated from the claim's
words, for comparison with the code's `totalSteps`. -/
def claimedTotalSteps (cfg : Config) : Nat :=
  ((gridProd cfg.chunk_sizes cfg.chunk_overlaps).filter
      (fun p => decide (p.2 < p.1))).length *
    (cfg.k_retrievals.length * (cfg.temperatures.length * cfg.top_ps.length))

/-- C1 fails as stated: with one valid and one invalid pair in the grid the
code's `total_steps` (line 139) is 2 — it counts the invalid pair — while the
claimed sum over valid groups only is 1; the run's step counter, the
numerator of every reported progress fraction, indeed reaches 2. -/
theorem claim_C1_counterexample :
    totalSteps cfgMix true = 2 ∧ claimedTotalSteps cfgMix = 1 ∧
    totalSteps cfgMix true ≠ claimedTotalSteps cfgMix ∧
    (run_batch_experiment envB ["f"] cfgMix "Q" false false).map
      (fun o => o.current_step) = .ok 2 := by
  refine ⟨by decide, by decide, by decide, by decide⟩

/-- C2's build-counting predicate: an index build for the pair (cs, co). -/
def Ev.isBuildOf (cs co : Nat) : Ev → Bool
  | .buildCall _ a b => decide (a = cs) && decide (b = co)
  | _ => false

/-- C2 fails as stated: with `chunk_sizes=[100,100]`, `chunk_overlaps=[10]`,
the distinct valid pair (100,10) occurs twice in the expanded grid and the
index build (`create_vectorstore`, line 179) is invoked twice for it, not
once. -/
theorem claim_C2_counterexample :
    (run_batch_experiment envB ["f"] cfgDup "Q" false false).map
      (fun o => o.trace.countP (Ev.isBuildOf 100 10)) = .ok 2 := by decide

/-- Environment in which every document load raises. -/
def envLoadFail : Env := { envB with loadDoc := fun _ => .error "bad pdf" }

/-- C4 fails as stated: when a document load raises, `run_batch_experiment`
catches the exception (lines 148–150), logs it and returns the empty result
list normally — it does not re-raise to the caller. -/
theorem claim_C4_counterexample :
    run_batch_experiment envLoadFail ["f"] cfgMix "Q" true true =
      .ok ⟨[], [Ev.load "f"], [], 0⟩ := by decide

/-- C6: in every run whose status sink does not raise, for every ingestion
group `g`: the generator release and the judge release each happen at most
once; every Phase-1 generation call of the group strictly precedes the
generator release; the generator release strictly precedes every Phase-2
judging call of the group; and every Phase-2 judging call strictly precedes
the judge release. -/
theorem claim_C6_release_discipline (env : Env) (fp : List String)
    (cfg : Config) (q : String) (pb sp : Bool)
    (hb : ∀ n, env.statusFail n = false) :
    ∃ out, run_batch_experiment env fp cfg q pb sp = .ok out ∧
      ∀ g, out.trace.countP (isGenRelG g) ≤ 1 ∧
        out.trace.countP (isJudgeRelG g) ≤ 1 ∧
        allBefore out.trace (isGenCallG g) (isGenRelG g) ∧
        allBefore out.trace (isGenRelG g) (isJudgeCallG g) ∧
        allBefore out.trace (isJudgeCallG g) (isJudgeRelG g) := by
  obtain ⟨out, hout, hshape⟩ := run_trace_shape env fp cfg q pb sp hb
  refine ⟨out, hout, fun g => ?_⟩
  rcases hshape with h | ⟨pre, rd, hf, hpre, htr⟩
  · exact groupProps_none out.trace h g
  · rw [htr]
    exact groupProps ⟨env, cfg, q, pb, sp, hf⟩ rd pre hpre
      (ingestionParams cfg hf) g

/-- A configuration with Ollama-hosted generator and judge, so both releases
actually occur. -/
def cfgOll : Config :=
  { model_name := "Ollama: Llama 3.2", judge_model := "Ollama: Mistral"
    chunk_sizes := [10], chunk_overlaps := [5]
    k_retrievals := [1, 2], temperatures := [1], top_ps := [1] }

/-- Witness for C6 at a concrete run with both models Ollama-hosted. -/
theorem claim_C6_release_discipline_witness :
    ∃ out, run_batch_experiment envB ["f"] cfgOll "Q" false false = .ok out ∧
      ∀ g, out.trace.countP (isGenRelG g) ≤ 1 ∧
        out.trace.countP (isJudgeRelG g) ≤ 1 ∧
        allBefore out.trace (isGenCallG g) (isGenRelG g) ∧
        allBefore out.trace (isGenRelG g) (isJudgeCallG g) ∧
        allBefore out.trace (isJudgeCallG g) (isJudgeRelG g) :=
  claim_C6_release_discipline envB ["f"] cfgOll "Q" false false
    (fun _ => rfl)

/-- An environment where the first task of every group fails its generation
and the others succeed. -/
def envC7 : Env :=
  { envB with genOutcome := fun _ i =>
      if i = 0 then .error "generation failed" else .ok ⟨"A", "ctx", 1⟩ }

/-- Witness for C7 at a concrete run in which one task's Phase 1 fails. -/
theorem claim_C7_failure_isolation_witness :
    ∃ out, run_batch_experiment envC7 ["f"] cfgOll "Q" false false =
        .ok out ∧
      ∀ g pair, (g, pair) ∈ (ingestionParams cfgOll true).enum →
        ∀ i, i < quota cfgOll true →
          (genOk (mkCtx envC7 cfgOll "Q" false false true) g i = false →
            Ev.judgeCall g i ∉ out.trace ∧
            ∀ r ∈ out.results, ¬(r.gIdx = g ∧ r.tIdx = i)) ∧
          (envC7.setupFail g i = none →
            groupRuns (mkCtx envC7 cfgOll "Q" false false true)
              (docsOf envC7 ["f"]) pair = true →
            Ev.genCall g i ∈ out.trace) ∧
          (genOk (mkCtx envC7 cfgOll "Q" false false true) g i = true →
            groupRuns (mkCtx envC7 cfgOll "Q" false false true)
              (docsOf envC7 ["f"]) pair = true →
            ∀ jd, envC7.judgeOutcome g i = Except.ok jd →
              ∃ r ∈ out.results, r.gIdx = g ∧ r.tIdx = i) :=
  claim_C7_failure_isolation envC7 ["f"] cfgOll "Q" false false
    (fun _ => rfl) rfl (by simp) (fun f _ => rfl) (by decide)


/-- Witness for C9 at a concrete run containing an invalid pair. -/
theorem claim_C9_invalid_pairs_witness :
    ((∃ out, run_batch_experiment envB ["f"] cfgMix "Q" true false =
        .ok out ∧
      ∀ g cs co, (Ev.splitCall g cs co ∈ out.trace ∨
        Ev.buildCall g cs co ∈ out.trace) → co < cs) ∧
    (∀ (c : Ctx) (rd : List String) (g cs co : Nat) (s : St), cs ≤ co →
      ∃ s2, runGroup c rd g (some (cs, co)) s = .ok s2 ∧
        s2.trace = s.trace ∧ s2.results = s.results ∧
        s2.current_step = s.current_step + quota c.cfg c.hasFiles)) ∧
    quota cfgMix true = 1 :=
  ⟨claim_C9_invalid_pairs envB ["f"] cfgMix "Q" true false (fun _ => rfl),
    by decide⟩


/-- Witness for C2's amended statement at the duplicated grid: the valid pair
(100, 10) occurs twice, so the build count for it is two. -/
theorem claim_C2_build_per_occurrence_witness :
    (∃ out, run_batch_experiment envB ["f"] cfgDup "Q" false false =
        .ok out ∧
      (∀ cs co, co < cs → out.trace.countP (Ev.isBuildOf2 cs co) =
        (gridProd cfgDup.chunk_sizes cfgDup.chunk_overlaps).countP
          (fun x => decide (x = (cs, co)))) ∧
      (∀ cs co, cs ≤ co → out.trace.countP (Ev.isBuildOf2 cs co) = 0)) ∧
    (gridProd cfgDup.chunk_sizes cfgDup.chunk_overlaps).countP
      (fun x => decide (x = (100, 10))) = 2 :=
  ⟨claim_C2_build_per_occurrence envB ["f"] cfgDup "Q" false false
    (fun _ => rfl) rfl (by simp) (fun f _ => rfl) (by decide)
    (fun cs co _ => rfl), by decide⟩

/-- Witness for C4's amended statement at a concrete failing loader. -/
theorem claim_C4_load_failure_witness :
    ∃ out, run_batch_experiment envLoadFail ["f"] cfgMix "Q" true true =
        .ok out ∧
      out.results = [] ∧ ∀ e ∈ out.trace, Ev.tagG e = none :=
  claim_C4_load_failure envLoadFail ["f"] cfgMix "Q" true true
    ⟨"f", by simp, rfl⟩

/-- Environment whose status sink always raises. -/
def envStatusFail : Env := { envB with statusFail := fun _ => true }

/-- C5 fails as stated: a failure raised by the status-reporting sink at the
Phase-1 banner (line 201, outside any `try`) propagates out of
`run_batch_experiment` and aborts the run. -/
theorem claim_C5_counterexample :
    run_batch_experiment envStatusFail ["f"] cfgValid "Q" false true =
      .error "status sink failure" := by decide

theorem claim_C1_total_and_final_progress_witness :
    ∃ out, run_batch_experiment envB ["f"] cfgMix "Q" true false = .ok out ∧
      totalSteps cfgMix true =
        (ingestionParams cfgMix true).length * quota cfgMix true ∧
      out.current_step = totalSteps cfgMix true ∧
      out.reports.getLast? = some 1 :=
  claim_C1_total_and_final_progress envB ["f"] cfgMix "Q" false
    (fun _ => rfl) (fun _ => rfl) rfl (by simp)
    (fun _ _ => rfl) (by decide) (fun _ _ => rfl) (fun _ _ => rfl)
    (fun _ _ _ => rfl) (fun _ => rfl) (by decide)

end Exp
